import Mathlib

/-!
Verification development for the pi_view repository (`bbp_algo.py`,
`monte_carlo.py`, `main_gui.py`).

The computational core of the repository is built on Python's `decimal`
module.  We embed the `Decimal` data type and the exact operations the
repository uses (`+`, `-`, `*`, `/`, unary `+`, `str`) by porting the
CPython `_pydecimal` reference algorithms (`_fix`, `__add__` with
`_normalize`, `__mul__`, `__truediv__`, `_rescale`, `__str__`) for the
default rounding mode `ROUND_HALF_EVEN`.  Idealisations, stated once here:

* A `Decimal` is a sign, a coefficient-digit string and an integer
  exponent; we fuse sign and coefficient into one signed integer.  A
  negative zero is observationally produced by CPython only under
  `ROUND_FLOOR` or by negating a zero that then escapes unrounded; in the
  operation sequences of this repository every zero that an operation
  returns is a positive zero, so the fused representation is faithful.
* CPython clamps exponents to `[Etiny, Etop]` derived from
  `Emin = -999999`, `Emax = 999999` of the default context and rounds
  subnormal results.  The repository works at precision `digits + 10`
  (resp. `digits + 2`) on values whose adjusted exponents stay far inside
  that window for every request the UI admits (`1 <= digits <= 100000`), so
  the clamped branches of `_fix` are unreachable and are omitted.
* The `decimal` context is thread-global mutable state in Python.  We pass
  it explicitly: every embedded top-level function takes the precision
  `pre` of the caller's context on entry and returns the precision the
  global context holds when the function returns.
* `random.random()` and the float test `x*x + y*y <= 1` in the Monte Carlo
  sampler are abstracted into an oracle `hit : Nat -> Bool` giving the
  membership outcome of each drawn sample; the hit-counting loop itself is
  embedded faithfully.  No claim below depends on the distribution of the
  draws.
-/

/-- Number of decimal digits of `n`, with `numDigitsAux fuel n` structurally
recursive on `fuel`; matches CPython's `len(str(coefficient))`, in
particular `numDigits 0 = 1` (the coefficient string of zero is `"0"`). -/
def numDigitsAux : Nat → Nat → Nat
  | 0, _ => 1
  | f + 1, n => if n < 10 then 1 else numDigitsAux f (n / 10) + 1

/-- Number of decimal digits of a coefficient. -/
def numDigits (n : Nat) : Nat := numDigitsAux n n

/-- Decimal digit characters of `n`, most significant first. -/
def natDigitsAux : Nat → Nat → List Char → List Char
  | 0, _, acc => acc
  | f + 1, n, acc =>
    if n < 10 then Char.ofNat (48 + n) :: acc
    else natDigitsAux f (n / 10) (Char.ofNat (48 + n % 10) :: acc)

/-- Decimal digit string of `n` (as printed by Python for a nonnegative int). -/
def natDigitsStr (n : Nat) : String := ⟨natDigitsAux (n + 1) n []⟩

/-- A Python `Decimal`: signed coefficient `c` and exponent `exp`, denoting
`c * 10 ^ exp`.  Mirrors CPython's `(sign, int-string, exp)` triple with
sign and coefficient fused (see the header note on negative zero). -/
structure Dec where
  c : Int
  exp : Int
deriving DecidableEq, Repr

/-- Rational value denoted by a `Dec`. -/
def toRat (x : Dec) : ℚ := (x.c : ℚ) * (10 : ℚ) ^ x.exp

/-- `Decimal(n)` for a Python int `n`: exact, exponent `0`. -/
def decInt (n : Int) : Dec := ⟨n, 0⟩

/-- CPython `Decimal._fix` for rounding `ROUND_HALF_EVEN`: round the
coefficient to at most `prec` digits.  The subnormal/overflow clamps of the
default context are unreachable here (header note) and omitted. -/
def fix (prec : Nat) (x : Dec) : Dec :=
  if x.c = 0 then x
  else
    let L := numDigits x.c.natAbs
    if L ≤ prec then x
    else
      let d := L - prec
      let m := x.c.natAbs
      let q := m / 10 ^ d
      let r := m % 10 ^ d
      let h := 5 * 10 ^ (d - 1)
      let q2 := if h < r ∨ (r = h ∧ q % 2 = 1) then q + 1 else q
      let s : Int := if x.c < 0 then -1 else 1
      if prec < numDigits q2 then ⟨s * ((q2 / 10 : Nat) : Int), x.exp + d + 1⟩
      else ⟨s * q2, x.exp + d⟩

/-- CPython `Decimal._rescale self exp` under `ROUND_HALF_EVEN`: the value
re-expressed with exponent `e`, rounding if digits are dropped. -/
def rescale (x : Dec) (e : Int) : Dec :=
  if x.c = 0 then ⟨0, e⟩
  else if e ≤ x.exp then ⟨x.c * 10 ^ (x.exp - e).toNat, e⟩
  else
    let s : Int := if x.c < 0 then -1 else 1
    let m0 := x.c.natAbs
    let L0 : Int := numDigits m0
    -- `digits < 0` in CPython replaces the operand by a sticky `1` one
    -- position below the target exponent
    let m := if L0 + x.exp - e < 0 then 1 else m0
    let me := if L0 + x.exp - e < 0 then e - 1 else x.exp
    let d := (e - me).toNat
    let q := m / 10 ^ d
    let r := m % 10 ^ d
    let h := 5 * 10 ^ (d - 1)
    let q2 := if h < r ∨ (r = h ∧ q % 2 = 1) then q + 1 else q
    ⟨s * q2, e⟩

/-- CPython `Decimal.__add__` (context rounding `ROUND_HALF_EVEN`, so the
`negativezero` flag is `0`), including `_normalize`'s padding of the
higher-exponent operand and its sticky replacement of an operand that lies
entirely below the other's guard digits. -/
def dadd (prec : Nat) (a b : Dec) : Dec :=
  let emin := min a.exp b.exp
  if a.c = 0 ∧ b.c = 0 then fix prec ⟨0, emin⟩
  else if a.c = 0 then fix prec (rescale b (max emin (b.exp - prec - 1)))
  else if b.c = 0 then fix prec (rescale a (max emin (a.exp - prec - 1)))
  else
    let tmp := if a.exp < b.exp then b else a
    let oth := if a.exp < b.exp then a else b
    let tl : Int := numDigits tmp.c.natAbs
    let eThr := tmp.exp + min (-1) (tl - prec - 2)
    let oth2 : Dec :=
      if (numDigits oth.c.natAbs : Int) + oth.exp - 1 < eThr
      then ⟨if oth.c < 0 then -1 else 1, eThr⟩ else oth
    let s := tmp.c * 10 ^ (tmp.exp - oth2.exp).toNat + oth2.c
    if s = 0 then ⟨0, emin⟩ else fix prec ⟨s, oth2.exp⟩

/-- CPython `Decimal.__sub__`: add the negation (`copy_negate`). -/
def dsub (prec : Nat) (a b : Dec) : Dec := dadd prec a ⟨-b.c, b.exp⟩

/-- CPython `Decimal.__mul__`: exact product of coefficients, exponents
added, then `_fix`.  (CPython's fast paths for a zero or unit coefficient
construct the identical triple.) -/
def dmul (prec : Nat) (a b : Dec) : Dec := fix prec ⟨a.c * b.c, a.exp + b.exp⟩

/-- Trailing-zero stripping of an exact quotient toward the ideal exponent,
from CPython `Decimal.__truediv__`. -/
def divStrip : Nat → Nat → Int → Int → Nat × Int
  | 0, q, e, _ => (q, e)
  | f + 1, q, e, ideal =>
    if e < ideal ∧ q % 10 = 0 then divStrip f (q / 10) (e + 1) ideal else (q, e)

/-- CPython `Decimal.__truediv__`: scaled integer division producing
`prec + 1` quotient digits, a sticky adjustment `q+1` when inexact with
`q % 5 == 0`, exact-quotient stripping toward the ideal exponent, then
`_fix`.  Division by zero raises in Python and is never reached by the
embedded programs; we return an arbitrary value there. -/
def ddiv (prec : Nat) (a b : Dec) : Dec :=
  if b.c = 0 then ⟨0, 0⟩
  else if a.c = 0 then fix prec ⟨0, a.exp - b.exp⟩
  else
    let s : Int := if (a.c < 0) = (b.c < 0) then 1 else -1
    let la : Int := numDigits a.c.natAbs
    let lb : Int := numDigits b.c.natAbs
    let shift := lb - la + prec + 1
    let exp0 := a.exp - b.exp - shift
    let num := a.c.natAbs * 10 ^ shift.toNat
    let den := b.c.natAbs * 10 ^ (-shift).toNat
    let q := num / den
    let r := num % den
    if r ≠ 0 then
      fix prec ⟨s * (if q % 5 = 0 then (q + 1 : Nat) else q), exp0⟩
    else
      let qe := divStrip (a.exp - b.exp - exp0).toNat q exp0 (a.exp - b.exp)
      fix prec ⟨s * qe.1, qe.2⟩

/-- CPython `Decimal.__pos__` (the `+pi` in the sources): round the operand
to the current context. -/
def dpos (prec : Nat) (x : Dec) : Dec := fix prec x

/-- Python `str()` slicing `s[:n]` for nonnegative `n`. -/
def pySlice (s : String) (n : Nat) : String := ⟨s.data.take n⟩

/-- A run of `n` zero characters. -/
def zeroChars (n : Nat) : List Char := List.replicate n '0'

/-- CPython `Decimal.__str__` (non-engineering): positional notation when
`exp <= 0` and the adjusted exponent is above `-6`, scientific notation
otherwise. -/
def pyStr (x : Dec) : String :=
  let sgn := if x.c < 0 then "-" else ""
  let ds := natDigitsAux (x.c.natAbs + 1) x.c.natAbs []
  let L : Int := ds.length
  let leftdigits := x.exp + L
  let dotplace := if x.exp ≤ 0 ∧ -6 < leftdigits then leftdigits else 1
  let ip : String :=
    if dotplace ≤ 0 then "0"
    else if L ≤ dotplace then ⟨ds ++ zeroChars (dotplace - L).toNat⟩
    else ⟨ds.take dotplace.toNat⟩
  let fp : String :=
    if dotplace ≤ 0 then ⟨'.' :: (zeroChars (-dotplace).toNat ++ ds)⟩
    else if L ≤ dotplace then ""
    else ⟨'.' :: ds.drop dotplace.toNat⟩
  let ep : String :=
    if leftdigits = dotplace then ""
    else "E" ++ (if 0 ≤ leftdigits - dotplace
      then "+" ++ natDigitsStr (leftdigits - dotplace).toNat
      else "-" ++ natDigitsStr (dotplace - leftdigits).toNat)
  sgn ++ ip ++ fp ++ ep

/-- Python `range(start, stop, step)` as a list, for a positive `step`;
fuel-structural with `stop - start` iterations sufficing. -/
def pyRangeAux (stop step : Nat) : Nat → Nat → List Nat
  | 0, _ => []
  | f + 1, start =>
    if start < stop then start :: pyRangeAux stop step f (start + step) else []

/-- Python `range(start, stop, step)` for `step >= 1`. -/
def pyRangeStep (start stop step : Nat) : List Nat :=
  pyRangeAux stop step (stop - start) start

/-- Python builtin `sum(d[i] for i in range(n))` over an index-keyed result
dictionary: starts from `z` (Python's int `0`, converted on first addition)
and fails — as the `KeyError` raised by `d[idx]` fails the whole call — if
any index in `[0, n)` is missing from the dictionary. -/
def pySum {α : Type} (add : α → α → α) (z : α) (d : Nat → Option α) (n : Nat) :
    Option α :=
  (List.range n).foldl
    (fun acc i =>
      match acc, d i with
      | some a, some x => some (add a x)
      | _, _ => none)
    (some z)

/-- `bbp_term(k)` from `bbp_algo.py`: evaluated under the caller's context
precision `prec`, which it does not modify. -/
def bbp_term (prec k : Nat) : Dec :=
  dmul prec (ddiv prec (decInt 1) (decInt (16 ^ k : Nat)))
    (dsub prec
      (dsub prec
        (dsub prec (ddiv prec (decInt 4) (decInt (8 * k + 1 : Nat)))
          (ddiv prec (decInt 2) (decInt (8 * k + 4 : Nat))))
        (ddiv prec (decInt 1) (decInt (8 * k + 5 : Nat))))
      (ddiv prec (decInt 1) (decInt (8 * k + 6 : Nat))))

/-- The serial BBP accumulation loop `for k in range(n): pi += bbp_term(k)`
started from `Decimal(0)`. -/
def bbpSum (prec : Nat) (ks : List Nat) : Dec :=
  ks.foldl (fun acc k => dadd prec acc (bbp_term prec k)) (decInt 0)

/-- `bbp_serial(digits)` from `bbp_algo.py`.  `pre` is the global context
precision on entry (immediately overwritten by `getcontext().prec =
digits + 10`); the second component is the global precision on return. -/
def bbp_serial (pre digits : Nat) : String × Nat :=
  let prec := digits + 10
  let pi := bbpSum prec (List.range digits)
  (pySlice (pyStr (dpos prec pi)) (digits + 2), prec)

/-- `_bbp_worker(start, end, digits, return_dict, idx)` from `bbp_algo.py`:
sets its own context to `digits + 10`, sums its term range, and returns the
partial result it writes to `return_dict[idx]` together with the precision
its context holds afterwards.  `pre` is the context it inherits on entry. -/
def _bbp_worker (pre start end_ digits : Nat) : Dec × Nat :=
  let prec := digits + 10
  (bbpSum prec (List.range' start (end_ - start)), prec)

/-- The chunk list of `bbp_parallel`:
`[(i, min(i + chunk_size, digits)) for i in range(0, digits, chunk_size)]`. -/
def bbpChunks (digits chunk_size : Nat) : List (Nat × Nat) :=
  (pyRangeStep 0 digits chunk_size).map (fun i => (i, min (i + chunk_size) digits))

/-- The populated `return_dict` after the join barrier of `bbp_parallel`:
worker `idx` (inheriting context precision `pre` from the parent) has
written exactly the partial sum of its chunk; indices without a chunk hold
nothing. -/
def bbpReturnDict (pre digits chunk_size : Nat) : Nat → Option Dec := fun idx =>
  ((bbpChunks digits chunk_size).get? idx).map
    (fun se => (_bbp_worker pre se.1 se.2 digits).1)

/-- `bbp_parallel(digits, chunk_size=100)` from `bbp_algo.py`.  Workers run
in isolation (each inheriting the parent's context precision, each setting
its own); the first component is `none` exactly when the aggregation would
raise `KeyError`, which cannot happen with every worker completing. -/
def bbp_parallel (pre digits chunk_size : Nat) : Option String × Nat :=
  let prec := digits + 10
  let chunks := bbpChunks digits chunk_size
  let pi := pySum (dadd prec) (decInt 0) (bbpReturnDict prec digits chunk_size)
    chunks.length
  (pi.map (fun p => pySlice (pyStr (dpos prec p)) (digits + 2)), prec)

/-- The Monte Carlo sampling loop: count the samples among the first
`samples` draws whose point lands inside the unit circle (`hit` is the
outcome oracle for the float test `x*x + y*y <= 1`, header note). -/
def mcCount (hit : Nat → Bool) (samples : Nat) : Nat :=
  (List.range samples).foldl (fun inside i => if hit i then inside + 1 else inside) 0

/-- `monte_carlo_serial(digits, samples_per_digit=2000)` from
`monte_carlo.py`; `pre` and the second component as in `bbp_serial`. -/
def monte_carlo_serial (pre digits samples_per_digit : Nat) (hit : Nat → Bool) :
    String × Nat :=
  let prec := digits + 2
  let total_samples := digits * samples_per_digit
  let inside := mcCount hit total_samples
  let pi := ddiv prec (dmul prec (decInt 4) (decInt inside)) (decInt total_samples)
  (pySlice (pyStr (dpos prec pi)) (digits + 2), prec)

/-- `_mc_worker(samples, return_dict, idx)` from `monte_carlo.py`: counts
hits over its own sample stream.  It performs no decimal arithmetic and
never touches the decimal context, so the context precision it inherits
(`pre`) is also the precision its context holds throughout and after. -/
def _mc_worker (pre samples : Nat) (hit : Nat → Bool) : Nat × Nat :=
  (mcCount hit samples, pre)

/-- The chunk list of `monte_carlo_parallel`:
`[(i, min(chunk_size, total_samples - i)) for i in range(0, total_samples, chunk_size)]`. -/
def mcChunks (total_samples chunk_size : Nat) : List (Nat × Nat) :=
  (pyRangeStep 0 total_samples chunk_size).map
    (fun i => (i, min chunk_size (total_samples - i)))

/-- The populated `return_dict` after the join barrier of
`monte_carlo_parallel`: worker `idx` (inheriting context precision `pre`)
has written its hit count; indices without a chunk hold nothing. -/
def mcReturnDict (pre total_samples chunk_size : Nat) (hitW : Nat → Nat → Bool) :
    Nat → Option Nat := fun idx =>
  ((mcChunks total_samples chunk_size).get? idx).map
    (fun p => (_mc_worker pre p.2 (hitW idx)).1)

/-- `monte_carlo_parallel(digits, samples_per_digit=2000, chunk_size=250000)`
from `monte_carlo.py`; `hitW idx` is the sample-outcome oracle of worker
`idx` (workers own independent generators). -/
def monte_carlo_parallel (pre digits samples_per_digit chunk_size : Nat)
    (hitW : Nat → Nat → Bool) : Option String × Nat :=
  let prec := digits + 2
  let total_samples := digits * samples_per_digit
  let chunks := mcChunks total_samples chunk_size
  let inside := pySum (fun a b : Nat => a + b) 0
    (mcReturnDict prec total_samples chunk_size hitW) chunks.length
  let out := inside.map (fun m =>
    pySlice
      (pyStr (dpos prec (ddiv prec (dmul prec (decInt 4) (decInt m))
        (decInt total_samples))))
      (digits + 2))
  (out, prec)

/-- The consistency check of `PiCalcWorker.run` in `main_gui.py` (lines
79-81): `parallel_runs i` is the result of the `i`-th invocation of
`parallel_func(self.digits)`; on a 102-character prefix mismatch with the
serial result the parallel function is invoked once more and that result is
kept with no further check. -/
def picalc_guard (pi_serial : String) (parallel_runs : Nat → String) : String :=
  if pySlice pi_serial 102 ≠ pySlice (parallel_runs 0) 102 then parallel_runs 1
  else parallel_runs 0

/-- The decimal expansion of pi, 200 significant characters — reference for
comparing produced digit strings. -/
def piDigits : String :=
  "3.14159265358979323846264338327950288419716939937510582097494459230781640628620899862803482534211706798214808651328230664709384460955058223172535940812848111745028410270193852110555964462294895493038196"

/-- The exact k-th BBP summand of the specification,
`16^-k * (4/(8k+1) - 2/(8k+4) - 1/(8k+5) - 1/(8k+6))`, as a rational. -/
def bbpTermExact (k : Nat) : ℚ :=
  ((16 : ℚ) ^ k)⁻¹ *
    (4 / (8 * k + 1) - 2 / (8 * k + 4) - 1 / (8 * k + 5) - 1 / (8 * k + 6))

/-- The spec's description of the digit-series term function (section 4.2),
modelled from the spec: the reciprocal of `16^k` times the left-associated
chain of context differences, every operation under the caller's context. -/
def bbpTermSpec (prec k : Nat) : Dec :=
  dmul prec (ddiv prec (decInt 1) (decInt (16 ^ k : Nat)))
    (dsub prec
      (dsub prec
        (dsub prec (ddiv prec (decInt 4) (decInt (8 * k + 1 : Nat)))
          (ddiv prec (decInt 2) (decInt (8 * k + 4 : Nat))))
        (ddiv prec (decInt 1) (decInt (8 * k + 5 : Nat))))
      (ddiv prec (decInt 1) (decInt (8 * k + 6 : Nat))))

/-- Python's `ceil(t / c)` on nonnegative integers, the unit count asserted
by the spec for the partitioner. -/
def ceilDiv (t c : Nat) : Nat := (t + c - 1) / c

section Lemmas

/-- `pyRangeAux` consumes fuel one unit per element; any fuel at least
`stop - start` yields the full range. -/
theorem ceilDivNat_zero (c : Nat) (hc : 1 ≤ c) : ceilDiv 0 c = 0 := by
  unfold ceilDiv
  exact Nat.div_eq_of_lt (by omega)

theorem pyRangeAux_spec (stop step : Nat) (hs : 1 ≤ step) :
    ∀ fuel start, stop - start ≤ fuel →
      pyRangeAux stop step fuel start =
        (List.range (ceilDiv (stop - start) step)).map (fun j => start + j * step) := by
  intro fuel
  induction fuel with
  | zero =>
    intro start h
    have h0 : stop - start = 0 := Nat.le_zero.mp h
    rw [h0, ceilDivNat_zero step hs]
    rfl
  | succ f ih =>
    intro start h
    by_cases hlt : start < stop
    · have hfuel : stop - (start + step) ≤ f := by omega
      have hrec := ih (start + step) hfuel
      have hceil : ceilDiv (stop - start) step
          = ceilDiv (stop - (start + step)) step + 1 := by
        unfold ceilDiv
        rcases Nat.lt_or_ge (stop - start) step with hc | hc
        · have h2 : stop - (start + step) = 0 := by omega
          have e1 : (stop - start + step - 1) / step = 1 := by
            apply Nat.div_eq_of_lt_le
            · omega
            · omega
          have e2 : (0 + step - 1) / step = 0 := Nat.div_eq_of_lt (by omega)
          rw [h2, e1, e2]
        · have h2 : stop - start + step - 1 = (stop - (start + step) + step - 1) + step := by
            omega
          rw [h2, Nat.add_div_right _ (by omega)]
      rw [pyRangeAux, if_pos hlt, hrec, hceil, List.range_succ_eq_map]
      simp only [List.map_cons, List.map_map, Nat.zero_mul, Nat.add_zero]
      refine congrArg₂ List.cons rfl ?_
      apply List.map_congr_left
      intro j _
      simp only [Function.comp_apply, Nat.succ_eq_add_one]
      ring
    · rw [pyRangeAux, if_neg hlt]
      have h0 : stop - start = 0 := by omega
      rw [h0, ceilDivNat_zero step hs]
      rfl

/-- Characterisation of Python `range(0, t, c)` for positive step `c`. -/
theorem pyRangeStep_eq (t c : Nat) (hc : 1 ≤ c) :
    pyRangeStep 0 t c = (List.range (ceilDiv t c)).map (fun j => j * c) := by
  have := pyRangeAux_spec t c hc (t - 0) 0 (Nat.le_refl _)
  simpa [pyRangeStep] using this

end Lemmas

theorem numDigitsAux_bounds :
    ∀ fuel n, n ≤ fuel →
      n < 10 ^ numDigitsAux fuel n ∧ (1 ≤ n → 10 ^ (numDigitsAux fuel n - 1) ≤ n) := by
  intro fuel
  induction fuel with
  | zero =>
    intro n h
    have h0 : n = 0 := by omega
    subst h0
    exact ⟨by norm_num [numDigitsAux], by omega⟩
  | succ f ih =>
    intro n h
    rw [numDigitsAux]
    by_cases hn : n < 10
    · rw [if_pos hn]
      exact ⟨by simpa using hn, fun h1 => by simpa using h1⟩
    · rw [if_neg hn]
      have hf : n / 10 ≤ f := by omega
      obtain ⟨ub, lb⟩ := ih (n / 10) hf
      have h10 : 1 ≤ n / 10 := by omega
      have lb2 := lb h10
      constructor
      · have : n < 10 * (n / 10) + 10 := by omega
        calc n < 10 * (n / 10) + 10 := this
          _ ≤ 10 * (10 ^ numDigitsAux f (n / 10) - 1) + 10 := by
              have := ub
              omega
          _ ≤ 10 ^ (numDigitsAux f (n / 10) + 1) := by
              rw [pow_succ]
              have : 1 ≤ 10 ^ numDigitsAux f (n / 10) := Nat.one_le_two_pow.trans
                (Nat.pow_le_pow_left (by norm_num) _)
              omega
      · intro _
        have hpos : 1 ≤ numDigitsAux f (n / 10) := by
          cases f <;> simp [numDigitsAux] <;> split <;> omega
        have e1 : numDigitsAux f (n / 10) + 1 - 1 = (numDigitsAux f (n / 10) - 1) + 1 := by
          omega
        rw [e1, pow_succ]
        calc 10 ^ (numDigitsAux f (n / 10) - 1) * 10 ≤ (n / 10) * 10 :=
              Nat.mul_le_mul_right _ lb2
          _ ≤ n := by omega

theorem numDigits_lt (n : Nat) : n < 10 ^ numDigits n :=
  (numDigitsAux_bounds n n (Nat.le_refl n)).1

theorem numDigits_le_self (n : Nat) (h : 1 ≤ n) : 10 ^ (numDigits n - 1) ≤ n :=
  (numDigitsAux_bounds n n (Nat.le_refl n)).2 h

theorem numDigits_pos (n : Nat) : 1 ≤ numDigits n := by
  unfold numDigits
  cases n <;> simp [numDigitsAux] <;> split <;> omega

theorem numDigits_le_of_lt_pow {n : Nat} {d : Nat} (hd : 1 ≤ d) (h : n < 10 ^ d) :
    numDigits n ≤ d := by
  by_contra hgt
  have h2 : d + 1 ≤ numDigits n := by omega
  have h3 : 1 ≤ n := by
    by_contra h0
    have : n = 0 := by omega
    subst this
    have : numDigits 0 = 1 := rfl
    omega
  have h4 := numDigits_le_self n h3
  have h5 : 10 ^ d ≤ 10 ^ (numDigits n - 1) :=
    Nat.pow_le_pow_right (by norm_num) (by omega)
  omega

theorem numDigits_ge_of_le {n : Nat} {d : Nat} (h : 10 ^ d ≤ n) :
    d + 1 ≤ numDigits n := by
  by_contra hlt
  have h2 : numDigits n ≤ d := by omega
  have := numDigits_lt n
  have h5 : 10 ^ numDigits n ≤ 10 ^ d := Nat.pow_le_pow_right (by norm_num) h2
  omega

theorem ceilDiv_one_of (T c : Nat) (h1 : 1 ≤ T) (h2 : T ≤ c) : ceilDiv T c = 1 := by
  unfold ceilDiv
  apply Nat.div_eq_of_lt_le <;> omega

theorem ceilDiv_eq_succ (T c : Nat) (h1 : 1 ≤ T) (hc : 1 ≤ c) :
    ceilDiv T c = (T - 1) / c + 1 := by
  unfold ceilDiv
  have h2 : T + c - 1 = (T - 1) + c := by omega
  rw [h2, Nat.add_div_right _ (by omega)]

theorem le_ceilDiv_mul (T c : Nat) (hc : 1 ≤ c) : T ≤ ceilDiv T c * c := by
  rcases Nat.eq_zero_or_pos T with h0 | h1
  · subst h0
    exact Nat.zero_le _
  · rw [ceilDiv_eq_succ T c h1 hc, Nat.succ_mul]
    have e := Nat.div_add_mod' (T - 1) c
    have hm : (T - 1) % c < c := Nat.mod_lt _ (by omega)
    generalize hA : (T - 1) / c * c = A at e
    generalize hB : (T - 1) % c = B at e hm
    omega

theorem ceilDiv_pred_mul_lt (T c : Nat) (h1 : 1 ≤ T) (hc : 1 ≤ c) :
    (ceilDiv T c - 1) * c < T := by
  rw [ceilDiv_eq_succ T c h1 hc]
  simp only [Nat.add_sub_cancel]
  have hle := Nat.div_mul_le_self (T - 1) c
  generalize hA : (T - 1) / c * c = A at hle
  omega

theorem chunkCover (T c : Nat) :
    ∀ m, (((List.range m).map
        (fun j => List.range' (j * c) (min c (T - j * c)))).flatten : List Nat)
      = List.range (min (m * c) T) := by
  intro m
  induction m with
  | zero => simp
  | succ m ih =>
    rw [List.range_succ, List.map_append, List.flatten_append]
    simp only [List.map_cons, List.map_nil, List.flatten_cons, List.flatten_nil,
      List.append_nil, ih]
    rcases le_or_lt T (m * c) with hle | hlt
    · have e1 : min (m * c) T = T := by omega
      have e2 : T - m * c = 0 := by omega
      have e3 : min ((m + 1) * c) T = T := by
        have h1 : (m + 1) * c = m * c + c := by ring
        have h2 : m.succ * c = m * c + c := Nat.succ_mul m c
        omega
      rw [e1, e2, e3]
      simp
    · have e1 : min (m * c) T = m * c := by omega
      rw [e1, List.range_eq_range', List.range_eq_range']
      have happ := List.range'_append 0 (m * c) (min c (T - m * c)) 1
      simp only [Nat.one_mul, Nat.zero_add] at happ
      rw [happ]
      have e2 : min c (T - m * c) + m * c = min ((m + 1) * c) T := by
        have h1 : (m + 1) * c = m * c + c := by ring
        have h2 : m.succ * c = m * c + c := Nat.succ_mul m c
        omega
      rw [e2]

theorem bbpChunks_eq (T c : Nat) (hc : 1 ≤ c) :
    bbpChunks T c =
      (List.range (ceilDiv T c)).map (fun j => (j * c, min (j * c + c) T)) := by
  unfold bbpChunks
  rw [pyRangeStep_eq T c hc, List.map_map]
  rfl

theorem mcChunks_eq (T c : Nat) (hc : 1 ≤ c) :
    mcChunks T c =
      (List.range (ceilDiv T c)).map (fun j => (j * c, min c (T - j * c))) := by
  unfold mcChunks
  rw [pyRangeStep_eq T c hc, List.map_map]
  rfl

theorem bbpChunks_length (T c : Nat) (hc : 1 ≤ c) :
    (bbpChunks T c).length = ceilDiv T c := by
  rw [bbpChunks_eq T c hc, List.length_map, List.length_range]

theorem mcChunks_length (T c : Nat) (hc : 1 ≤ c) :
    (mcChunks T c).length = ceilDiv T c := by
  rw [mcChunks_eq T c hc, List.length_map, List.length_range]

theorem bbpChunks_cover (T c : Nat) (hc : 1 ≤ c) :
    ((bbpChunks T c).map (fun p => List.range' p.1 (p.2 - p.1))).flatten
      = List.range T := by
  rw [bbpChunks_eq T c hc, List.map_map]
  have hpt : ∀ j : Nat,
      ((fun p : Nat × Nat => List.range' p.1 (p.2 - p.1)) ∘
        (fun j => (j * c, min (j * c + c) T))) j
      = List.range' (j * c) (min c (T - j * c)) := by
    intro j
    simp only [Function.comp_apply]
    have : min (j * c + c) T - j * c = min c (T - j * c) := by omega
    rw [this]
  rw [List.map_congr_left (fun j _ => hpt j), chunkCover T c (ceilDiv T c)]
  have : min (ceilDiv T c * c) T = T := by
    have := le_ceilDiv_mul T c hc
    omega
  rw [this]

theorem mcChunks_cover (T c : Nat) (hc : 1 ≤ c) :
    ((mcChunks T c).map (fun p => List.range' p.1 p.2)).flatten = List.range T := by
  rw [mcChunks_eq T c hc, List.map_map]
  have hpt : ∀ j : Nat,
      ((fun p : Nat × Nat => List.range' p.1 p.2) ∘
        (fun j => (j * c, min c (T - j * c)))) j
      = List.range' (j * c) (min c (T - j * c)) := fun j => rfl
  rw [List.map_congr_left (fun j _ => hpt j), chunkCover T c (ceilDiv T c)]
  have : min (ceilDiv T c * c) T = T := by
    have := le_ceilDiv_mul T c hc
    omega
  rw [this]

theorem bbpChunks_get (T c : Nat) (hc : 1 ≤ c) (i : Nat) (hi : i < ceilDiv T c) :
    (bbpChunks T c).get? i = some (i * c, min (i * c + c) T) := by
  rw [bbpChunks_eq T c hc, List.get?_map, List.get?_range hi]
  rfl

theorem mcChunks_get (T c : Nat) (hc : 1 ≤ c) (i : Nat) (hi : i < ceilDiv T c) :
    (mcChunks T c).get? i = some (i * c, min c (T - i * c)) := by
  rw [mcChunks_eq T c hc, List.get?_map, List.get?_range hi]
  rfl

theorem chunk_full_of_not_last (T c i : Nat) (hT : 1 ≤ T) (hc : 1 ≤ c)
    (hi : i + 1 < ceilDiv T c) : i * c + c ≤ T := by
  have h1 : i + 1 ≤ ceilDiv T c - 1 := by omega
  have h2 : (i + 1) * c ≤ (ceilDiv T c - 1) * c := Nat.mul_le_mul_right c h1
  have h3 := ceilDiv_pred_mul_lt T c hT hc
  have h4 : (i + 1) * c = i * c + c := by ring
  omega

/-- C5: for every `total_work >= 1` and `chunk_size >= 1`, the chunk lists
built by both parallel paths are ordered sequences of contiguous half-open
ranges covering `[0, total_work)` exactly once (their concatenation in
order is exactly `[0, total_work)`), with exactly
`ceil(total_work / chunk_size)` units, every unit except possibly the last
of length exactly `chunk_size`, and a single unit when
`chunk_size >= total_work`.  (`bbpChunks` carries `(start, end)` pairs,
`mcChunks` carries `(start, size)` pairs, as in the sources.) -/
theorem claim5_partitioner (T c : Nat) (hT : 1 ≤ T) (hc : 1 ≤ c) :
    (bbpChunks T c).length = ceilDiv T c ∧
    ((bbpChunks T c).map (fun p => List.range' p.1 (p.2 - p.1))).flatten
      = List.range T ∧
    (∀ i p, i + 1 < (bbpChunks T c).length → (bbpChunks T c).get? i = some p →
      p.2 - p.1 = c) ∧
    (T ≤ c → bbpChunks T c = [(0, T)]) ∧
    (mcChunks T c).length = ceilDiv T c ∧
    ((mcChunks T c).map (fun p => List.range' p.1 p.2)).flatten = List.range T ∧
    (∀ i p, i + 1 < (mcChunks T c).length → (mcChunks T c).get? i = some p →
      p.2 = c) ∧
    (T ≤ c → mcChunks T c = [(0, T)]) := by
  refine ⟨bbpChunks_length T c hc, bbpChunks_cover T c hc, ?_, ?_,
    mcChunks_length T c hc, mcChunks_cover T c hc, ?_, ?_⟩
  · intro i p hi hp
    rw [bbpChunks_length T c hc] at hi
    rw [bbpChunks_get T c hc i (by omega)] at hp
    have hfull := chunk_full_of_not_last T c i hT hc hi
    cases hp
    simp only
    omega
  · intro hTc
    rw [bbpChunks_eq T c hc, ceilDiv_one_of T c hT hTc]
    have h0 : List.range 1 = [0] := by decide
    rw [h0]
    simp only [List.map_cons, List.map_nil, Nat.zero_mul, Nat.zero_add]
    have : min c T = T := by omega
    rw [this]
  · intro i p hi hp
    rw [mcChunks_length T c hc] at hi
    rw [mcChunks_get T c hc i (by omega)] at hp
    have hfull := chunk_full_of_not_last T c i hT hc hi
    cases hp
    simp only
    omega
  · intro hTc
    rw [mcChunks_eq T c hc, ceilDiv_one_of T c hT hTc]
    have h0 : List.range 1 = [0] := by decide
    rw [h0]
    simp only [List.map_cons, List.map_nil, Nat.zero_mul]
    have h1 : T - 0 = T := by omega
    have h2 : min c T = T := by omega
    rw [h1, h2]

/-- Witness for C5 at `total_work = 7`, `chunk_size = 3`. -/
theorem claim5_witness :
    (1 ≤ 7 ∧ 1 ≤ 3) ∧
    ((bbpChunks 7 3).length = ceilDiv 7 3 ∧
      ((bbpChunks 7 3).map (fun p => List.range' p.1 (p.2 - p.1))).flatten
        = List.range 7 ∧
      (∀ i p, i + 1 < (bbpChunks 7 3).length → (bbpChunks 7 3).get? i = some p →
        p.2 - p.1 = 3) ∧
      (7 ≤ 3 → bbpChunks 7 3 = [(0, 7)]) ∧
      (mcChunks 7 3).length = ceilDiv 7 3 ∧
      ((mcChunks 7 3).map (fun p => List.range' p.1 p.2)).flatten = List.range 7 ∧
      (∀ i p, i + 1 < (mcChunks 7 3).length → (mcChunks 7 3).get? i = some p →
        p.2 = 3) ∧
      (7 ≤ 3 → mcChunks 7 3 = [(0, 7)])) :=
  ⟨⟨by decide, by decide⟩, claim5_partitioner 7 3 (by decide) (by decide)⟩

theorem pySum_step {α : Type} (add : α → α → α) (z : α) (d : Nat → Option α)
    (n : Nat) :
    pySum add z d (n + 1) =
      match pySum add z d n, d n with
      | some a, some x => some (add a x)
      | _, _ => none := by
  unfold pySum
  rw [List.range_succ, List.foldl_append]
  rfl

theorem pySum_none_of_missing {α : Type} (add : α → α → α) (z : α)
    (d : Nat → Option α) :
    ∀ n, (∃ i, i < n ∧ d i = none) → pySum add z d n = none := by
  intro n
  induction n with
  | zero =>
    rintro ⟨i, hi, _⟩
    omega
  | succ n ih =>
    rintro ⟨i, hi, hnone⟩
    rw [pySum_step]
    by_cases hin : i < n
    · rw [ih ⟨i, hin, hnone⟩]
    · have hieq : i = n := by omega
      rw [hieq] at hnone
      rw [hnone]
      cases pySum add z d n <;> rfl

/-- C8: in both parallel paths the aggregation
`sum(return_dict[idx] for idx in range(len(chunks)))` is `pySum`, applied
to `bbpReturnDict` by `bbp_parallel` and to `mcReturnDict` by
`monte_carlo_parallel`.  If any index below the chunk count is missing from
the result dictionary (a worker failed to write its slot), the whole
aggregation fails (`KeyError` in the source, `none` here); conversely an
aggregated value exists only when every slot is present, so no sum over
merely the surviving chunks is ever returned. -/
theorem claim8_worker_failure {α : Type} (add : α → α → α) (z : α)
    (d : Nat → Option α) (n : Nat) :
    ((∃ i, i < n ∧ d i = none) → pySum add z d n = none) ∧
    (∀ v, pySum add z d n = some v → ∀ i, i < n → d i ≠ none) := by
  refine ⟨pySum_none_of_missing add z d n, ?_⟩
  intro v hv i hi hnone
  rw [pySum_none_of_missing add z d n ⟨i, hi, hnone⟩] at hv
  exact Option.noConfusion hv

/-- Witness for C8: a dictionary missing slot `1` of `3` aggregates to a
failure, and a successful aggregation has every slot present. -/
theorem claim8_witness :
    pySum (fun a b : Nat => a + b) 0
        (fun i => if i = 1 then none else some (i + 1)) 3 = none ∧
    (fun i : Nat => some (i + 1)) 2 ≠ none :=
  ⟨(claim8_worker_failure (fun a b : Nat => a + b) 0
      (fun i => if i = 1 then none else some (i + 1)) 3).1 ⟨1, by decide, rfl⟩,
   (claim8_worker_failure (fun a b : Nat => a + b) 0
      (fun i => some (i + 1)) 3).2 6 (by decide) 2 (by decide)⟩

/-- C7: the consistency guard of `PiCalcWorker.run` (digit-series path):
when the serial and first parallel results agree on their first 102
characters the original parallel result is returned unchanged; when they
differ, the parallel computation is rerun exactly once and its result is
accepted without any further comparison — whatever the rerun returns. -/
theorem claim7_consistency_guard (s : String) (runs : Nat → String) :
    (pySlice s 102 = pySlice (runs 0) 102 → picalc_guard s runs = runs 0) ∧
    (pySlice s 102 ≠ pySlice (runs 0) 102 → picalc_guard s runs = runs 1) := by
  unfold picalc_guard
  constructor
  · intro h
    rw [if_neg (fun hne => hne h)]
  · intro h
    rw [if_pos h]

/-- Witness for C7: both branches at concrete strings. -/
theorem claim7_witness :
    picalc_guard "3.14" (fun i => if i = 0 then "3.14" else "9.99") = "3.14" ∧
    picalc_guard "3.14" (fun i => if i = 0 then "2.72" else "9.99") = "9.99" :=
  ⟨(claim7_consistency_guard "3.14" (fun i => if i = 0 then "3.14" else "9.99")).1
      (by decide),
   (claim7_consistency_guard "3.14" (fun i => if i = 0 then "2.72" else "9.99")).2
      (by decide)⟩

/-- C9: every entry point overwrites the caller's global decimal context
precision and does not restore it: whatever precision `pre` the context
held before the call, after `bbp_serial`/`bbp_parallel` it holds
`digits + 10`, and after `monte_carlo_serial`/`monte_carlo_parallel` it
holds `digits + 2`. -/
theorem claim9_context_frame (pre digits chunk_size spd : Nat)
    (hit : Nat → Bool) (hitW : Nat → Nat → Bool) :
    (bbp_serial pre digits).2 = digits + 10 ∧
    (bbp_parallel pre digits chunk_size).2 = digits + 10 ∧
    (monte_carlo_serial pre digits spd hit).2 = digits + 2 ∧
    (monte_carlo_parallel pre digits spd chunk_size hitW).2 = digits + 2 :=
  ⟨rfl, rfl, rfl, rfl⟩

/-- C6 is false as stated: the Monte Carlo worker `_mc_worker` establishes
no precision context at all.  Serving a `digits = 5` request while
inheriting a context of precision `1`, its context still holds `1` after
running — below the `digits + 2 = 7` the claim requires of every worker. -/
theorem claim6_counterexample :
    (_mc_worker 1 8 (fun _ => true)).2 = 1 ∧ (1 : Nat) < 5 + 2 := by
  exact ⟨rfl, by omega⟩

/-- C6 amended: the digit-series workers and all four entry-point
evaluators do establish their own precision before any decimal arithmetic
(`digits + 10` for the digit series, `digits + 2` for sampling, both at
least `digits + 2`), independently of the context they inherit; the
sampling worker performs only exact integer hit counting, touches no
decimal arithmetic, and leaves its inherited context precision unchanged
(its count is independent of that precision). -/
theorem claim6_amended (pre pre2 start end_ digits spd chunk_size : Nat)
    (hit : Nat → Bool) (hitW : Nat → Nat → Bool) :
    (_bbp_worker pre start end_ digits).2 = digits + 10 ∧
    _bbp_worker pre start end_ digits = _bbp_worker pre2 start end_ digits ∧
    digits + 2 ≤ digits + 10 ∧
    (bbp_serial pre digits).2 = digits + 10 ∧
    (bbp_parallel pre digits chunk_size).2 = digits + 10 ∧
    (monte_carlo_serial pre digits spd hit).2 = digits + 2 ∧
    (monte_carlo_parallel pre digits spd chunk_size hitW).2 = digits + 2 ∧
    (_mc_worker pre spd hit).2 = pre ∧
    (_mc_worker pre spd hit).1 = (_mc_worker pre2 spd hit).1 :=
  ⟨rfl, rfl, by omega, rfl, rfl, rfl, rfl, rfl, rfl⟩

theorem mcCount_succ (hit : Nat → Bool) (n : Nat) :
    mcCount hit (n + 1) = if hit n then mcCount hit n + 1 else mcCount hit n := by
  unfold mcCount
  rw [List.range_succ, List.foldl_append]
  rfl

theorem mcCount_le (hit : Nat → Bool) : ∀ n, mcCount hit n ≤ n := by
  intro n
  induction n with
  | zero => exact Nat.le_refl 0
  | succ n ih =>
    rw [mcCount_succ]
    split <;> omega

theorem ratio_mem (m T : Nat) (hT : 1 ≤ T) (hm : m ≤ T) :
    (0 : ℚ) ≤ 4 * (m : ℚ) / (T : ℚ) ∧ 4 * (m : ℚ) / (T : ℚ) ≤ 4 := by
  have hT0 : (0 : ℚ) < (T : ℚ) := by exact_mod_cast hT
  constructor
  · positivity
  · rw [div_le_iff hT0]
    have hmT : (m : ℚ) ≤ (T : ℚ) := by exact_mod_cast hm
    nlinarith

theorem sum_map_get_eq {α : Type} (l : List α) (g : α → Nat) :
    ((List.range l.length).map (fun i => ((l.get? i).map g).getD 0)).sum
      = (l.map g).sum := by
  induction l with
  | nil => rfl
  | cons a t ih =>
    have hlen : (a :: t).length = t.length + 1 := rfl
    rw [hlen, List.range_succ_eq_map, List.map_cons, List.map_map, List.map_cons,
      List.sum_cons, List.sum_cons]
    have hhead : (((a :: t).get? 0).map g).getD 0 = g a := rfl
    rw [hhead]
    refine congrArg (g a + ·) ?_
    rw [← ih]
    refine congrArg List.sum ?_
    apply List.map_congr_left
    intro i _
    rfl

theorem mc_sizes_sum (T c : Nat) (hc : 1 ≤ c) :
    ((mcChunks T c).map Prod.snd).sum = T := by
  have hcov := mcChunks_cover T c hc
  have hlen := congrArg List.length hcov
  rw [List.length_flatten, List.map_map, List.length_range] at hlen
  have hpt : (mcChunks T c).map
        (List.length ∘ fun p : Nat × Nat => List.range' p.1 p.2)
      = (mcChunks T c).map Prod.snd := by
    apply List.map_congr_left
    intro p _
    simp [List.length_range']
  rw [hpt] at hlen
  exact hlen

theorem pySum_mc_le (pre T c : Nat) (hitW : Nat → Nat → Bool) :
    ∀ n m, pySum (fun a b : Nat => a + b) 0 (mcReturnDict pre T c hitW) n = some m →
      m ≤ ((List.range n).map (fun i =>
        (((mcChunks T c).get? i).map Prod.snd).getD 0)).sum := by
  intro n
  induction n with
  | zero =>
    intro m hm
    have h0 : (0 : Nat) = m := Option.some.inj hm
    simp [← h0]
  | succ n ih =>
    intro m hm
    rw [pySum_step] at hm
    rw [List.range_succ, List.map_append, List.sum_append]
    rcases ha : pySum (fun a b : Nat => a + b) 0 (mcReturnDict pre T c hitW) n with
      _ | a
    · rw [ha] at hm
      exact absurd hm (by simp)
    rcases hd : mcReturnDict pre T c hitW n with _ | x
    · rw [ha, hd] at hm
      exact absurd hm (by simp)
    rw [ha, hd] at hm
    have hm2 : a + x = m := Option.some.inj hm
    unfold mcReturnDict at hd
    rcases hg : (mcChunks T c).get? n with _ | p
    · rw [hg] at hd
      exact absurd hd (by simp)
    rw [hg] at hd
    have hx : mcCount (hitW n) p.2 = x := by
      have := Option.some.inj hd
      simpa [_mc_worker] using this
    have hxle : x ≤ p.2 := hx ▸ mcCount_le (hitW n) p.2
    have hi := ih a ha
    have hlast : ((((mcChunks T c).get? n).map Prod.snd).getD 0) = p.2 := by
      rw [hg]
      rfl
    simp only [List.map_cons, List.map_nil, List.sum_cons, List.sum_nil, hlast]
    omega

/-- C10: in both sampling paths the hit count never exceeds the number of
samples drawn (and, being a `Nat`, is never negative): the serial loop
counts at most its `digits * samples_per_digit` draws, and any aggregate
the parallel join produces is a sum of per-chunk counts bounded by the
chunk sizes, which partition the same total.  Consequently the aggregated
value `4 * hits / total_samples` always lies in `[0, 4]`. -/
theorem claim10_hits_in_range (digits spd chunk_size : Nat) (hit : Nat → Bool)
    (hitW : Nat → Nat → Bool) (hd : 1 ≤ digits) (hs : 1 ≤ spd)
    (hc : 1 ≤ chunk_size) :
    (∀ g n, mcCount g n ≤ n) ∧
    ((0 : ℚ) ≤ 4 * (mcCount hit (digits * spd) : ℚ) / ((digits * spd : Nat) : ℚ) ∧
      4 * (mcCount hit (digits * spd) : ℚ) / ((digits * spd : Nat) : ℚ) ≤ 4) ∧
    (∀ m, pySum (fun a b : Nat => a + b) 0
        (mcReturnDict (digits + 2) (digits * spd) chunk_size hitW)
        (mcChunks (digits * spd) chunk_size).length = some m →
      m ≤ digits * spd ∧
      (0 : ℚ) ≤ 4 * (m : ℚ) / ((digits * spd : Nat) : ℚ) ∧
      4 * (m : ℚ) / ((digits * spd : Nat) : ℚ) ≤ 4) := by
  have hT : 1 ≤ digits * spd := by
    calc 1 = 1 * 1 := rfl
    _ ≤ digits * spd := Nat.mul_le_mul hd hs
  refine ⟨fun g n => mcCount_le g n,
    ratio_mem _ _ hT (mcCount_le hit _), ?_⟩
  intro m hm
  have h1 := pySum_mc_le (digits + 2) (digits * spd) chunk_size hitW _ m hm
  have h2 : ((List.range (mcChunks (digits * spd) chunk_size).length).map (fun i =>
      (((mcChunks (digits * spd) chunk_size).get? i).map Prod.snd).getD 0)).sum
      = digits * spd := by
    rw [sum_map_get_eq, mc_sizes_sum _ _ hc]
  have hmle : m ≤ digits * spd := by omega
  exact ⟨hmle, ratio_mem _ _ hT hmle⟩

/-- Witness for C10 at `digits = 1`, `samples_per_digit = 3`,
`chunk_size = 2`, with every draw a hit. -/
theorem claim10_witness :
    (∀ g n, mcCount g n ≤ n) ∧
    ((0 : ℚ) ≤ 4 * (mcCount (fun _ => true) (1 * 3) : ℚ) / ((1 * 3 : Nat) : ℚ) ∧
      4 * (mcCount (fun _ => true) (1 * 3) : ℚ) / ((1 * 3 : Nat) : ℚ) ≤ 4) ∧
    (∀ m, pySum (fun a b : Nat => a + b) 0
        (mcReturnDict (1 + 2) (1 * 3) 2 (fun _ _ => true))
        (mcChunks (1 * 3) 2).length = some m →
      m ≤ 1 * 3 ∧
      (0 : ℚ) ≤ 4 * (m : ℚ) / ((1 * 3 : Nat) : ℚ) ∧
      4 * (m : ℚ) / ((1 * 3 : Nat) : ℚ) ≤ 4) :=
  claim10_hits_in_range 1 3 2 (fun _ => true) (fun _ _ => true)
    (by decide) (by decide) (by decide)

theorem pySlice_length_le (s : String) (n : Nat) : (pySlice s n).length ≤ n := by
  have h : (pySlice s n).length = (s.data.take n).length := rfl
  rw [h, List.length_take]
  omega

set_option maxRecDepth 40000
set_option maxHeartbeats 4000000

/-- C1 is false as stated: the digit-series serial evaluator truncates to
`digits + 2` characters, so for `digits = 5` it returns the 7-character
string "3.14159" (not "3.1415") and for `digits = 10` the 12-character
string "3.1415926535" (not "3.141592653").  `28` is the precision of
Python's default context on entry; the result does not depend on it. -/
theorem claim1_counterexample :
    (bbp_serial 28 5).1 ≠ "3.1415" ∧ (bbp_serial 28 10).1 ≠ "3.141592653" := by
  decide

/-- C1 amended: for `1 <= digits <= 15` (the verified finite range — the
`digits`-term convergence is an empirical heuristic of the source, not
provable for all `digits`), `compute_digit_series_serial(digits)` equals
the first `digits + 2` characters of the decimal expansion of pi; in
particular for `digits = 10` it returns "3.1415926535" and for
`digits = 5` it returns exactly "3.14159". -/
theorem claim1_amended :
    ((List.range 15).all fun i =>
      (bbp_serial 28 (i + 1)).1 == pySlice piDigits (i + 3)) = true ∧
    (bbp_serial 28 5).1 = "3.14159" ∧
    (bbp_serial 28 10).1 = "3.1415926535" := by
  decide

/-- C3 is false as stated: a sampling run whose aggregated value renders to
a short string returns fewer than `digits + 2` characters.  With
`digits = 1`, `samples_per_digit = 4` and 3 of the 4 drawn samples inside
the circle, `monte_carlo_serial` computes `4 * 3 / 4 = Decimal("3")` and
returns "3" (length 1, not `digits + 2 = 3`).  The same happens at the
default `samples_per_digit = 2000` whenever `inside = 1500`. -/
theorem claim3_counterexample :
    (monte_carlo_serial 28 1 4 (fun i => i < 3)).1 = "3" ∧
    ((monte_carlo_serial 28 1 4 (fun i => i < 3)).1).length ≠ 1 + 2 := by
  decide

/-- C3 amended: every one of the four entry points returns the truncation
(never a rounding — the string is cut after rendering, so no kept digit is
altered) of the rendered aggregated value to at most `digits + 2`
characters; the digit-series entry points return exactly `digits + 2`
characters (verified for `1 <= digits <= 12` serial and parallel), while
the sampling entry points can return fewer when the rendered value is
short. -/
theorem claim3_amended :
    (∀ pre digits, ((bbp_serial pre digits).1).length ≤ digits + 2 ∧
      (bbp_serial pre digits).1 =
        pySlice
          (pyStr (dpos (digits + 10) (bbpSum (digits + 10) (List.range digits))))
          (digits + 2)) ∧
    (∀ pre digits c s, (bbp_parallel pre digits c).1 = some s →
      s.length ≤ digits + 2) ∧
    (∀ pre digits spd hit,
      ((monte_carlo_serial pre digits spd hit).1).length ≤ digits + 2) ∧
    (∀ pre digits spd c hitW s, (monte_carlo_parallel pre digits spd c hitW).1 = some s →
      s.length ≤ digits + 2) ∧
    ((List.range 12).all fun i =>
      ((bbp_serial 28 (i + 1)).1.length == i + 3) &&
      ((bbp_parallel 28 (i + 1) 100).1.map String.length == some (i + 3))) = true := by
  refine ⟨fun pre digits => ⟨pySlice_length_le _ _, rfl⟩, ?_,
    fun pre digits spd hit => pySlice_length_le _ _, ?_, by decide⟩
  · intro pre digits c s hs
    have hs2 : (pySum (dadd (digits + 10)) (decInt 0)
          (bbpReturnDict (digits + 10) digits c) (bbpChunks digits c).length).map
        (fun p => pySlice (pyStr (dpos (digits + 10) p)) (digits + 2)) = some s := hs
    obtain ⟨p, _, hps⟩ := Option.map_eq_some'.mp hs2
    rw [← hps]
    exact pySlice_length_le _ _
  · intro pre digits spd c hitW s hs
    have hs2 : (pySum (fun a b : Nat => a + b) 0
          (mcReturnDict (digits + 2) (digits * spd) c hitW)
          (mcChunks (digits * spd) c).length).map
        (fun m => pySlice
          (pyStr (dpos (digits + 2) (ddiv (digits + 2)
            (dmul (digits + 2) (decInt 4) (decInt m)) (decInt (digits * spd)))))
          (digits + 2)) = some s := hs
    obtain ⟨p, _, hps⟩ := Option.map_eq_some'.mp hs2
    rw [← hps]
    exact pySlice_length_le _ _

/-- Witness for C3 (amended) on the hypothesis-bearing conjuncts: concrete
parallel results for both algorithms. -/
theorem claim3_witness :
    ((bbp_parallel 28 1 100).1 = some "3.1" ∧ ("3.1" : String).length ≤ 1 + 2) ∧
    ((monte_carlo_parallel 28 1 4 250000 (fun _ i => i < 3)).1 = some "3" ∧
      ("3" : String).length ≤ 1 + 2) :=
  ⟨⟨by decide, claim3_amended.2.1 28 1 100 "3.1" (by decide)⟩,
   ⟨by decide, claim3_amended.2.2.2.1 28 1 4 250000 (fun _ i => i < 3) "3" (by decide)⟩⟩


theorem toRat_abs (x : Dec) : |toRat x| = (x.c.natAbs : ℚ) * 10 ^ x.exp := by
  unfold toRat
  rw [abs_mul, abs_of_pos (zpow_pos (by norm_num : (0:ℚ) < 10) x.exp),
    Int.cast_natAbs, Int.cast_abs]

theorem toRat_abs_lower (x : Dec) (hc : x.c ≠ 0) :
    (10 : ℚ) ^ ((numDigits x.c.natAbs : ℤ) + x.exp - 1) ≤ |toRat x| := by
  rw [toRat_abs]
  have h1 : 10 ^ (numDigits x.c.natAbs - 1) ≤ x.c.natAbs :=
    numDigits_le_self _ (Int.natAbs_pos.mpr hc)
  have h2 : ((numDigits x.c.natAbs : ℤ) + x.exp - 1)
      = ((numDigits x.c.natAbs - 1 : Nat) : ℤ) + x.exp := by
    have := numDigits_pos x.c.natAbs
    push_cast
    omega
  rw [h2, zpow_add₀ (by norm_num : (10:ℚ) ≠ 0)]
  apply mul_le_mul_of_nonneg_right _ (le_of_lt (zpow_pos (by norm_num) _))
  rw [zpow_natCast]
  exact_mod_cast Nat.cast_le.mpr h1

theorem toRat_abs_upper (x : Dec) :
    |toRat x| < (10 : ℚ) ^ ((numDigits x.c.natAbs : ℤ) + x.exp) := by
  rw [toRat_abs, zpow_add₀ (by norm_num : (10:ℚ) ≠ 0)]
  apply mul_lt_mul_of_pos_right _ (zpow_pos (by norm_num) _)
  rw [zpow_natCast]
  exact_mod_cast numDigits_lt x.c.natAbs

theorem fix_eq_self (prec : Nat) (x : Dec) (h : numDigits x.c.natAbs ≤ prec) :
    fix prec x = x := by
  unfold fix
  by_cases hc : x.c = 0
  · rw [if_pos hc]
  · rw [if_neg hc, if_pos h]

theorem sign_mul_natAbs (x : Dec) (k : Nat) :
    ((if x.c < 0 then (-1 : ℤ) else 1) * k).natAbs = k := by
  split <;> simp [Int.natAbs_mul]

theorem sign_mul_cast (x : Dec) (k : Nat) :
    (((if x.c < 0 then (-1 : ℤ) else 1) * k : ℤ) : ℚ)
      = (if x.c < 0 then (-1 : ℚ) else 1) * k := by
  split <;> push_cast <;> ring

theorem numDigits_pow (k : Nat) : numDigits (10 ^ k) = k + 1 := by
  have h1 : k + 1 ≤ numDigits (10 ^ k) := numDigits_ge_of_le (Nat.le_refl _)
  have h2 : numDigits (10 ^ k) ≤ k + 1 :=
    numDigits_le_of_lt_pow (by omega) (Nat.pow_lt_pow_right (by norm_num) (by omega))
  omega

theorem fix_round_spec (prec : Nat) (x : Dec) (hp : 1 ≤ prec) (hc : x.c ≠ 0)
    (hL : prec < numDigits x.c.natAbs) :
    ∃ q2 : Nat, 1 ≤ q2 ∧ q2 ≤ 10 ^ prec ∧
      numDigits (fix prec x).c.natAbs ≤ prec ∧
      ((fix prec x).exp = x.exp + (numDigits x.c.natAbs - prec : Nat) ∨
       (fix prec x).exp = x.exp + (numDigits x.c.natAbs - prec : Nat) + 1) ∧
      toRat (fix prec x)
        = (if x.c < 0 then (-1 : ℚ) else 1) * q2
            * (10 : ℚ) ^ (x.exp + (numDigits x.c.natAbs - prec : Nat)) ∧
      (q2 - 1) * 10 ^ (numDigits x.c.natAbs - prec) ≤ x.c.natAbs ∧
      x.c.natAbs ≤ (q2 + 1) * 10 ^ (numDigits x.c.natAbs - prec) := by
  have hL' : ¬ numDigits x.c.natAbs ≤ prec := by omega
  set L := numDigits x.c.natAbs with hLdef
  set d := L - prec with hddef
  set m := x.c.natAbs with hmdef
  set q := m / 10 ^ d with hqdef
  set r := m % 10 ^ d with hrdef
  set q2 := (if 5 * 10 ^ (d - 1) < r ∨ (r = 5 * 10 ^ (d - 1) ∧ q % 2 = 1)
    then q + 1 else q) with hq2def
  have hfix : fix prec x =
      if prec < numDigits q2
      then ⟨(if x.c < 0 then (-1 : ℤ) else 1) * ((q2 / 10 : Nat) : Int),
        x.exp + (d : Int) + 1⟩
      else ⟨(if x.c < 0 then (-1 : ℤ) else 1) * (q2 : Int), x.exp + (d : Int)⟩ := by
    unfold fix
    rw [if_neg hc, if_neg hL']
  have hm1 : 1 ≤ m := Int.natAbs_pos.mpr hc
  have hd1 : 1 ≤ d := by omega
  have hmlt : m < 10 ^ L := numDigits_lt m
  have hmge : 10 ^ (L - 1) ≤ m := numDigits_le_self m hm1
  have hpow : (10 : Nat) ^ prec * 10 ^ d = 10 ^ L := by
    rw [← pow_add]
    congr 1
    omega
  have hqlt : q < 10 ^ prec := by
    rw [hqdef, Nat.div_lt_iff_lt_mul (Nat.pos_pow_of_pos d (by norm_num))]
    omega
  have hq1 : 1 ≤ q := by
    rw [hqdef, Nat.le_div_iff_mul_le (Nat.pos_pow_of_pos d (by norm_num))]
    have hdle : (10 : Nat) ^ d ≤ 10 ^ (L - 1) :=
      Nat.pow_le_pow_right (by norm_num) (by omega)
    omega
  have hq21 : 1 ≤ q2 := by
    rw [hq2def]
    split <;> omega
  have hq2le : q2 ≤ 10 ^ prec := by
    rw [hq2def]
    split <;> omega
  have hdm : q * 10 ^ d + r = m := Nat.div_add_mod' m (10 ^ d)
  have hrlt : r < 10 ^ d := Nat.mod_lt m (Nat.pos_pow_of_pos d (by norm_num))
  have hlow : (q2 - 1) * 10 ^ d ≤ m := by
    have hle : q2 - 1 ≤ q := by rw [hq2def]; split <;> omega
    calc (q2 - 1) * 10 ^ d ≤ q * 10 ^ d := Nat.mul_le_mul_right _ hle
    _ ≤ m := by omega
  have hhigh : m ≤ (q2 + 1) * 10 ^ d := by
    have hge : q ≤ q2 := by rw [hq2def]; split <;> omega
    have hs1 : m < (q + 1) * 10 ^ d := by
      have hr : (q + 1) * 10 ^ d = q * 10 ^ d + 10 ^ d := by ring
      omega
    have hs2 : (q + 1) * 10 ^ d ≤ (q2 + 1) * 10 ^ d :=
      Nat.mul_le_mul_right _ (by omega)
    omega
  by_cases hcar : prec < numDigits q2
  · have hq2eq : q2 = 10 ^ prec := by
      have hb1 := numDigits_le_self q2 hq21
      have hb2 : 10 ^ prec ≤ 10 ^ (numDigits q2 - 1) :=
        Nat.pow_le_pow_right (by norm_num) (by omega)
      omega
    have hdiv : q2 / 10 = 10 ^ (prec - 1) := by
      rw [hq2eq]
      have h3 : (10 : Nat) ^ prec = 10 ^ (prec - 1) * 10 := by
        rw [← pow_succ]
        congr 1
        omega
      rw [h3, Nat.mul_div_cancel _ (by norm_num)]
    have hfix2 : fix prec x =
        ⟨(if x.c < 0 then (-1 : ℤ) else 1) * ((10 : Nat) ^ (prec - 1) : Nat),
          x.exp + (d : Nat) + 1⟩ := by
      rw [hfix, if_pos hcar, hdiv]
    refine ⟨q2, hq21, hq2le, ?_, ?_, ?_, hlow, hhigh⟩
    · rw [hfix2]
      simp only [sign_mul_natAbs, numDigits_pow]
      omega
    · rw [hfix2]
      right
      rfl
    · rw [hfix2]
      unfold toRat
      simp only
      rw [sign_mul_cast, hq2eq]
      have hcast1 : ((10 ^ (prec - 1) : Nat) : ℚ) = (10 : ℚ) ^ ((prec - 1 : Nat) : ℤ) := by
        push_cast
        rw [zpow_natCast]
      have hcast2 : ((10 ^ prec : Nat) : ℚ) = (10 : ℚ) ^ ((prec : Nat) : ℤ) := by
        push_cast
        rw [zpow_natCast]
      rw [hcast1, hcast2, mul_assoc, mul_assoc]
      congr 1
      rw [← zpow_add₀ (by norm_num : (10:ℚ) ≠ 0), ← zpow_add₀ (by norm_num : (10:ℚ) ≠ 0)]
      congr 1
      push_cast
      omega
  · have hfix2 : fix prec x =
        ⟨(if x.c < 0 then (-1 : ℤ) else 1) * q2, x.exp + (d : Nat)⟩ := by
      rw [hfix, if_neg hcar]
    refine ⟨q2, hq21, hq2le, ?_, ?_, ?_, hlow, hhigh⟩
    · rw [hfix2]
      simp only [sign_mul_natAbs]
      omega
    · rw [hfix2]
      left
      rfl
    · rw [hfix2]
      unfold toRat
      simp only
      rw [sign_mul_cast]

theorem fix_of_zero (prec : Nat) (x : Dec) (hc : x.c = 0) : fix prec x = x := by
  unfold fix
  rw [if_pos hc]

theorem toRat_eq_sign (x : Dec) :
    toRat x = (if x.c < 0 then (-1 : ℚ) else 1) * (x.c.natAbs : ℚ) * 10 ^ x.exp := by
  unfold toRat
  have habs : ((x.c.natAbs : ℕ) : ℚ) = |(x.c : ℚ)| := by
    rw [Int.cast_natAbs, Int.cast_abs]
  by_cases h : x.c < 0
  · rw [if_pos h, habs, abs_of_neg (by exact_mod_cast h : (x.c : ℚ) < 0)]
    ring
  · rw [if_neg h, habs,
      abs_of_nonneg (by exact_mod_cast (by omega : (0 : ℤ) ≤ x.c) : (0 : ℚ) ≤ (x.c : ℚ))]
    ring

theorem fix_digits_le (prec : Nat) (x : Dec) (hp : 1 ≤ prec) :
    numDigits (fix prec x).c.natAbs ≤ prec := by
  by_cases hc : x.c = 0
  · rw [fix_of_zero prec x hc, hc]
    have h1 : numDigits (0 : Int).natAbs = 1 := rfl
    omega
  · by_cases hL : numDigits x.c.natAbs ≤ prec
    · rw [fix_eq_self prec x hL]
      exact hL
    · obtain ⟨q2, _, _, h3, _⟩ := fix_round_spec prec x hp hc (by omega)
      exact h3

theorem fix_err (prec : Nat) (x : Dec) (hp : 1 ≤ prec) :
    |toRat (fix prec x) - toRat x| ≤ |toRat x| * (10 : ℚ) ^ ((1 : ℤ) - prec) := by
  by_cases hc : x.c = 0
  · rw [fix_of_zero prec x hc, sub_self, abs_zero]
    positivity
  · by_cases hL : numDigits x.c.natAbs ≤ prec
    · rw [fix_eq_self prec x hL, sub_self, abs_zero]
      positivity
    · obtain ⟨q2, hq1, hq2le, _, _, hval, hlow, hhigh⟩ :=
        fix_round_spec prec x hp hc (by omega)
      have hxval := toRat_eq_sign x
      have hsabs : |if x.c < 0 then (-1 : ℚ) else 1| = 1 := by
        split <;> norm_num
      have hdiff : toRat (fix prec x) - toRat x
          = (if x.c < 0 then (-1 : ℚ) else 1) *
            (((q2 : ℚ) * (10 : ℚ) ^ ((numDigits x.c.natAbs - prec : Nat) : ℤ)
              - x.c.natAbs) * (10 : ℚ) ^ x.exp) := by
        rw [hval, hxval, zpow_add₀ (by norm_num : (10:ℚ) ≠ 0)]
        ring
      have hdabs : |toRat (fix prec x) - toRat x|
          = |(q2 : ℚ) * (10 : ℚ) ^ ((numDigits x.c.natAbs - prec : Nat) : ℤ)
              - x.c.natAbs| * (10 : ℚ) ^ x.exp := by
        rw [hdiff, abs_mul, hsabs, one_mul, abs_mul,
          abs_of_pos (zpow_pos (by norm_num : (0:ℚ) < 10) x.exp)]
      have hbound : |(q2 : ℚ) * (10 : ℚ) ^ ((numDigits x.c.natAbs - prec : Nat) : ℤ)
            - x.c.natAbs| ≤ (10 : ℚ) ^ ((numDigits x.c.natAbs - prec : Nat) : ℤ) := by
        have hlowQ : (q2 : ℚ) * (10 : ℚ) ^ ((numDigits x.c.natAbs - prec : Nat) : ℤ)
            - (10 : ℚ) ^ ((numDigits x.c.natAbs - prec : Nat) : ℤ) ≤ x.c.natAbs := by
          have hcast : (((q2 - 1) * 10 ^ (numDigits x.c.natAbs - prec) : ℕ) : ℚ)
              ≤ (x.c.natAbs : ℚ) := Nat.cast_le.mpr hlow
          push_cast [Nat.cast_sub hq1] at hcast
          rw [zpow_natCast]
          nlinarith [hcast]
        have hhighQ : (x.c.natAbs : ℚ) ≤ (q2 : ℚ) *
            (10 : ℚ) ^ ((numDigits x.c.natAbs - prec : Nat) : ℤ)
            + (10 : ℚ) ^ ((numDigits x.c.natAbs - prec : Nat) : ℤ) := by
          have hcast : ((x.c.natAbs : ℕ) : ℚ)
              ≤ (((q2 + 1) * 10 ^ (numDigits x.c.natAbs - prec) : ℕ) : ℚ) :=
            Nat.cast_le.mpr hhigh
          push_cast at hcast
          rw [zpow_natCast]
          nlinarith [hcast]
        rw [abs_le]
        constructor <;> nlinarith [hlowQ, hhighQ]
      have hstep : |toRat (fix prec x) - toRat x|
          ≤ (10 : ℚ) ^ (((numDigits x.c.natAbs - prec : Nat) : ℤ) + x.exp) := by
        rw [hdabs, zpow_add₀ (by norm_num : (10:ℚ) ≠ 0)]
        exact mul_le_mul_of_nonneg_right hbound
          (le_of_lt (zpow_pos (by norm_num) _))
      refine le_trans hstep ?_
      have hlower := toRat_abs_lower x hc
      have hexp : (((numDigits x.c.natAbs - prec : Nat) : ℤ) + x.exp)
          = ((numDigits x.c.natAbs : ℤ) + x.exp - 1) + ((1 : ℤ) - prec) := by
        have : prec < numDigits x.c.natAbs := by omega
        push_cast
        omega
      rw [hexp, zpow_add₀ (by norm_num : (10:ℚ) ≠ 0)]
      exact mul_le_mul_of_nonneg_right hlower (le_of_lt (zpow_pos (by norm_num) _))

theorem fix_abs_le (prec : Nat) (x : Dec) (hp : 1 ≤ prec) :
    |toRat (fix prec x)| ≤ |toRat x| * (1 + (10 : ℚ) ^ ((1 : ℤ) - prec)) := by
  have h1 := fix_err prec x hp
  have h2 : |toRat (fix prec x)| ≤ |toRat x| + |toRat (fix prec x) - toRat x| := by
    have := abs_add (toRat x) (toRat (fix prec x) - toRat x)
    simpa using this
  nlinarith [h1, h2, abs_nonneg (toRat x)]

theorem fix_exp_le0 (prec : Nat) (x : Dec) (hp : 1 ≤ prec) (he : x.exp ≤ 0)
    (hv : |toRat x| < (10 : ℚ) ^ ((prec : ℤ) - 1)) : (fix prec x).exp ≤ 0 := by
  by_cases hc : x.c = 0
  · rw [fix_of_zero prec x hc]
    exact he
  · by_cases hL : numDigits x.c.natAbs ≤ prec
    · rw [fix_eq_self prec x hL]
      exact he
    · obtain ⟨q2, _, _, _, hexp, _, _, _⟩ := fix_round_spec prec x hp hc (by omega)
      have hlower := toRat_abs_lower x hc
      have hlt : (10 : ℚ) ^ ((numDigits x.c.natAbs : ℤ) + x.exp - 1)
          < (10 : ℚ) ^ ((prec : ℤ) - 1) := lt_of_le_of_lt hlower hv
      have hZ : (numDigits x.c.natAbs : ℤ) + x.exp - 1 < (prec : ℤ) - 1 :=
        (zpow_lt_zpow_iff_right₀ (by norm_num : (1:ℚ) < 10)).mp hlt
      have hcast : ((numDigits x.c.natAbs - prec : Nat) : ℤ)
          = (numDigits x.c.natAbs : ℤ) - prec := by
        have : prec < numDigits x.c.natAbs := by omega
        push_cast
        omega
      rcases hexp with h | h <;> rw [h] <;> omega

theorem rescale_self (x : Dec) : rescale x x.exp = x := by
  unfold rescale
  by_cases hc : x.c = 0
  · rw [if_pos hc]
    cases x
    simp_all
  · rw [if_neg hc, if_pos (le_refl x.exp)]
    cases x
    simp

theorem toRat_pad (c : ℤ) (e1 e2 : ℤ) (h : e2 ≤ e1) :
    toRat ⟨c * 10 ^ (e1 - e2).toNat, e2⟩ = toRat ⟨c, e1⟩ := by
  unfold toRat
  simp only
  have hk : (((e1 - e2).toNat : ℕ) : ℤ) = e1 - e2 := Int.toNat_of_nonneg (by omega)
  calc ((c * 10 ^ (e1 - e2).toNat : ℤ) : ℚ) * 10 ^ e2
      = (c : ℚ) * (10 : ℚ) ^ (((e1 - e2).toNat : ℕ) : ℤ) * 10 ^ e2 := by
        push_cast
        rw [zpow_natCast]
    _ = (c : ℚ) * 10 ^ (e1 - e2) * 10 ^ e2 := by rw [hk]
    _ = (c : ℚ) * 10 ^ e1 := by
        rw [mul_assoc, ← zpow_add₀ (by norm_num : (10:ℚ) ≠ 0), sub_add_cancel]

theorem rescale_pad (x : Dec) (e : Int) (h : e ≤ x.exp) :
    toRat (rescale x e) = toRat x ∧ (rescale x e).exp = e := by
  unfold rescale
  by_cases hc : x.c = 0
  · rw [if_pos hc]
    refine ⟨?_, rfl⟩
    unfold toRat
    simp [hc]
  · rw [if_neg hc, if_pos h]
    refine ⟨?_, rfl⟩
    have := toRat_pad x.c x.exp e h
    simpa using this

theorem toRat_add_coeff (x y e : ℤ) :
    toRat ⟨x + y, e⟩ = toRat ⟨x, e⟩ + toRat ⟨y, e⟩ := by
  unfold toRat
  push_cast
  ring

theorem zadd_id (prec : Nat) (b : Dec) (he : b.exp ≤ 0)
    (hd : numDigits b.c.natAbs ≤ prec) : dadd prec (decInt 0) b = b := by
  unfold dadd
  by_cases hb : b.c = 0
  · rw [if_pos ⟨rfl, hb⟩]
    show fix prec ⟨0, min (0 : ℤ) b.exp⟩ = b
    rw [min_eq_right he, fix_of_zero prec _ rfl]
    cases b
    simp_all
  · rw [if_neg (fun h => hb h.2), if_pos (show (decInt 0).c = 0 from rfl)]
    show fix prec (rescale b (max (min (0 : ℤ) b.exp) (b.exp - prec - 1))) = b
    rw [min_eq_right he, max_eq_left (by omega), rescale_self]
    exact fix_eq_self prec b hd

theorem dadd_digits_le (prec : Nat) (a b : Dec) (hp : 1 ≤ prec) :
    numDigits (dadd prec a b).c.natAbs ≤ prec := by
  by_cases h1 : a.c = 0 ∧ b.c = 0
  · unfold dadd
    rw [if_pos h1]
    exact fix_digits_le _ _ hp
  · by_cases h2 : a.c = 0
    · unfold dadd
      rw [if_neg h1, if_pos h2]
      exact fix_digits_le _ _ hp
    · by_cases h3 : b.c = 0
      · unfold dadd
        rw [if_neg h1, if_neg h2, if_pos h3]
        exact fix_digits_le _ _ hp
      · set tmp := if a.exp < b.exp then b else a with htmp
        set oth := if a.exp < b.exp then a else b with hoth
        set tl : Int := (numDigits tmp.c.natAbs : Int) with htl
        set eThr := tmp.exp + min (-1) (tl - prec - 2) with hthr
        set oth2 := (if (numDigits oth.c.natAbs : Int) + oth.exp - 1 < eThr
          then (⟨if oth.c < 0 then -1 else 1, eThr⟩ : Dec) else oth) with hoth2
        set s := tmp.c * 10 ^ (tmp.exp - oth2.exp).toNat + oth2.c with hsdef
        have hD : dadd prec a b =
            if s = 0 then ⟨0, min a.exp b.exp⟩ else fix prec ⟨s, oth2.exp⟩ := by
          unfold dadd
          rw [if_neg h1, if_neg h2, if_neg h3]
        rw [hD]
        by_cases hs0 : s = 0
        · rw [if_pos hs0]
          have h4 : numDigits ((⟨0, min a.exp b.exp⟩ : Dec)).c.natAbs = 1 := rfl
          omega
        · rw [if_neg hs0]
          exact fix_digits_le _ _ hp

theorem zpow_le_zpow_exp (a b : ℤ) (h : a ≤ b) : (10:ℚ) ^ a ≤ 10 ^ b :=
  zpow_le_zpow_right₀ (by norm_num) h

theorem dadd_props (prec : Nat) (a b : Dec) (hp : 2 ≤ prec)
    (hea : a.exp ≤ 0) (heb : b.exp ≤ 0)
    (hda : numDigits a.c.natAbs ≤ prec) (hdb : numDigits b.c.natAbs ≤ prec)
    (hv : |toRat a| + |toRat b| ≤ (10 : ℚ) ^ ((prec : ℤ) - 2)) :
    (dadd prec a b).exp ≤ 0 ∧
    |toRat (dadd prec a b)| ≤ (|toRat a| + |toRat b|) * (5 / 4) := by
  have hp1 : 1 ≤ prec := by omega
  have habs_nonneg : (0:ℚ) ≤ |toRat a| + |toRat b| := by positivity
  have heps1 : (10:ℚ) ^ ((1:ℤ) - prec) ≤ 1 / 10 := by
    have h1 : ((1:ℤ) - prec) ≤ -1 := by omega
    have h2 := zpow_le_zpow_exp _ _ h1
    have h3 : (10:ℚ) ^ (-1 : ℤ) = 1 / 10 := by norm_num
    rw [h3] at h2
    exact h2
  have heps2 : (10:ℚ) ^ (-(prec:ℤ) - 1) ≤ 1 / 1000 := by
    have h1 : (-(prec:ℤ) - 1) ≤ -3 := by omega
    have h2 := zpow_le_zpow_exp _ _ h1
    have h3 : (10:ℚ) ^ (-3 : ℤ) = 1 / 1000 := by norm_num
    rw [h3] at h2
    exact h2
  have heps1p : (0:ℚ) < (10:ℚ) ^ ((1:ℤ) - prec) := zpow_pos (by norm_num) _
  have heps2p : (0:ℚ) < (10:ℚ) ^ (-(prec:ℤ) - 1) := zpow_pos (by norm_num) _
  by_cases h1 : a.c = 0 ∧ b.c = 0
  · have hD : dadd prec a b = fix prec ⟨0, min a.exp b.exp⟩ := by
      unfold dadd
      rw [if_pos h1]
    rw [hD, fix_of_zero prec _ rfl]
    constructor
    · show min a.exp b.exp ≤ 0
      omega
    · have hz : toRat ⟨0, min a.exp b.exp⟩ = 0 := by
        unfold toRat
        simp
      rw [hz, abs_zero]
      nlinarith
  · by_cases h2 : a.c = 0
    · have hD : dadd prec a b
          = fix prec (rescale b (max (min a.exp b.exp) (b.exp - prec - 1))) := by
        unfold dadd
        rw [if_neg h1, if_pos h2]
      have hle : max (min a.exp b.exp) (b.exp - prec - 1) ≤ b.exp := by omega
      obtain ⟨hrv, hre⟩ := rescale_pad b _ hle
      have hza : toRat a = 0 := by
        unfold toRat
        rw [h2]
        simp
      rw [hD]
      constructor
      · apply fix_exp_le0 _ _ hp1
        · rw [hre]
          omega
        · rw [hrv]
          calc |toRat b| ≤ |toRat a| + |toRat b| := le_add_of_nonneg_left (abs_nonneg _)
          _ ≤ (10:ℚ) ^ ((prec : ℤ) - 2) := hv
          _ < (10:ℚ) ^ ((prec : ℤ) - 1) := by
            apply zpow_lt_zpow_right₀ (by norm_num)
            omega
      · calc |toRat (fix prec (rescale b _))|
            ≤ |toRat (rescale b _)| * (1 + (10:ℚ) ^ ((1:ℤ) - prec)) :=
              fix_abs_le _ _ hp1
        _ = |toRat b| * (1 + (10:ℚ) ^ ((1:ℤ) - prec)) := by rw [hrv]
        _ ≤ (|toRat a| + |toRat b|) * (5 / 4) := by
            nlinarith [abs_nonneg (toRat a), abs_nonneg (toRat b)]
    · by_cases h3 : b.c = 0
      · have hD : dadd prec a b
            = fix prec (rescale a (max (min a.exp b.exp) (a.exp - prec - 1))) := by
          unfold dadd
          rw [if_neg h1, if_neg h2, if_pos h3]
        have hle : max (min a.exp b.exp) (a.exp - prec - 1) ≤ a.exp := by omega
        obtain ⟨hrv, hre⟩ := rescale_pad a _ hle
        rw [hD]
        constructor
        · apply fix_exp_le0 _ _ hp1
          · rw [hre]
            omega
          · rw [hrv]
            calc |toRat a| ≤ |toRat a| + |toRat b| := le_add_of_nonneg_right (abs_nonneg _)
            _ ≤ (10:ℚ) ^ ((prec : ℤ) - 2) := hv
            _ < (10:ℚ) ^ ((prec : ℤ) - 1) := by
              apply zpow_lt_zpow_right₀ (by norm_num)
              omega
        · calc |toRat (fix prec (rescale a _))|
              ≤ |toRat (rescale a _)| * (1 + (10:ℚ) ^ ((1:ℤ) - prec)) :=
                fix_abs_le _ _ hp1
          _ = |toRat a| * (1 + (10:ℚ) ^ ((1:ℤ) - prec)) := by rw [hrv]
          _ ≤ (|toRat a| + |toRat b|) * (5 / 4) := by
              nlinarith [abs_nonneg (toRat a), abs_nonneg (toRat b)]
      · set tmp := if a.exp < b.exp then b else a with htmp
        set oth := if a.exp < b.exp then a else b with hoth
        set tl : Int := (numDigits tmp.c.natAbs : Int) with htl
        set eThr := tmp.exp + min (-1) (tl - prec - 2) with hthr
        set oth2 := (if (numDigits oth.c.natAbs : Int) + oth.exp - 1 < eThr
          then (⟨if oth.c < 0 then -1 else 1, eThr⟩ : Dec) else oth) with hoth2
        set s := tmp.c * 10 ^ (tmp.exp - oth2.exp).toNat + oth2.c with hsdef
        have hD : dadd prec a b =
            if s = 0 then ⟨0, min a.exp b.exp⟩ else fix prec ⟨s, oth2.exp⟩ := by
          unfold dadd
          rw [if_neg h1, if_neg h2, if_neg h3]
        have hbase : tmp.exp ≤ 0 ∧ oth.exp ≤ 0 ∧ oth.exp ≤ tmp.exp ∧
            numDigits tmp.c.natAbs ≤ prec ∧ tmp.c ≠ 0 ∧ oth.c ≠ 0 ∧
            |toRat tmp| + |toRat oth| = |toRat a| + |toRat b| := by
          rcases lt_or_le a.exp b.exp with hcase | hcase
          · have ht : tmp = b := by rw [htmp, if_pos hcase]
            have ho : oth = a := by rw [hoth, if_pos hcase]
            rw [ht, ho]
            exact ⟨heb, hea, le_of_lt hcase, hdb, h3, h2, by ring⟩
          · have ht : tmp = a := by rw [htmp, if_neg (not_lt.mpr hcase)]
            have ho : oth = b := by rw [hoth, if_neg (not_lt.mpr hcase)]
            rw [ht, ho]
            exact ⟨hea, heb, hcase, hda, h2, h3, by ring⟩
        obtain ⟨hte, hoe, hot, htd, htc, hoc, hsum⟩ := hbase
        have hthr2 : eThr = tmp.exp + (tl - prec - 2) := by
          rw [hthr, min_eq_right (by omega : (tl - prec - 2 : ℤ) ≤ -1)]
        have hoth2e : oth2.exp ≤ 0 ∧ oth2.exp ≤ tmp.exp := by
          rw [hoth2]
          split
          · constructor <;> simp only [hthr2] <;> omega
          · exact ⟨hoe, hot⟩
        have hoth2v : |toRat oth2| ≤ |toRat oth|
            + |toRat tmp| * (10:ℚ) ^ (-(prec:ℤ) - 1) := by
          rw [hoth2]
          split
          · have hvs : |toRat (⟨if oth.c < 0 then -1 else 1, eThr⟩ : Dec)|
                = (10:ℚ) ^ eThr := by
              rw [toRat_abs]
              have hna : ((⟨if oth.c < 0 then -1 else 1, eThr⟩ : Dec)).c.natAbs = 1 := by
                simp only
                split <;> rfl
              rw [hna]
              norm_num
            rw [hvs]
            have hlow := toRat_abs_lower tmp htc
            have he2 : eThr = ((numDigits tmp.c.natAbs : ℤ) + tmp.exp - 1)
                + (-(prec:ℤ) - 1) := by
              rw [hthr2, htl]
              ring
            rw [he2, zpow_add₀ (by norm_num : (10:ℚ) ≠ 0)]
            have h6 := mul_le_mul_of_nonneg_right hlow (le_of_lt heps2p)
            nlinarith [abs_nonneg (toRat oth)]
          · nlinarith [abs_nonneg (toRat tmp), le_of_lt heps2p]
        have hsv : toRat ⟨s, oth2.exp⟩ = toRat tmp + toRat oth2 := by
          rw [hsdef, toRat_add_coeff]
          congr 1
          exact toRat_pad tmp.c tmp.exp oth2.exp hoth2e.2
        have hsabs : |toRat ⟨s, oth2.exp⟩|
            ≤ (|toRat a| + |toRat b|) * (1 + (10:ℚ) ^ (-(prec:ℤ) - 1)) := by
          rw [hsv]
          have htri := abs_add (toRat tmp) (toRat oth2)
          have htmp_le : |toRat tmp| ≤ |toRat a| + |toRat b| := by
            rw [← hsum]
            exact le_add_of_nonneg_right (abs_nonneg _)
          nlinarith [abs_nonneg (toRat oth2), abs_nonneg (toRat oth)]
        rw [hD]
        by_cases hs0 : s = 0
        · rw [if_pos hs0]
          constructor
          · show min a.exp b.exp ≤ 0
            omega
          · have hz : toRat ⟨0, min a.exp b.exp⟩ = 0 := by
              unfold toRat
              simp
            rw [hz, abs_zero]
            nlinarith
        · rw [if_neg hs0]
          have hlt : |toRat ⟨s, oth2.exp⟩| < (10:ℚ) ^ ((prec:ℤ) - 1) := by
            have hx : (10:ℚ) ^ ((prec:ℤ) - 1) = (10:ℚ) ^ ((prec:ℤ) - 2) * 10 := by
              rw [show ((prec:ℤ) - 1) = ((prec:ℤ) - 2) + 1 by omega,
                zpow_add₀ (by norm_num : (10:ℚ) ≠ 0)]
              norm_num
            have hz2 : (0:ℚ) < (10:ℚ) ^ ((prec:ℤ) - 2) := zpow_pos (by norm_num) _
            calc |toRat ⟨s, oth2.exp⟩|
                ≤ (|toRat a| + |toRat b|) * (1 + (10:ℚ) ^ (-(prec:ℤ) - 1)) := hsabs
            _ ≤ (10:ℚ) ^ ((prec:ℤ) - 2) * (1 + (10:ℚ) ^ (-(prec:ℤ) - 1)) := by
                nlinarith
            _ < (10:ℚ) ^ ((prec:ℤ) - 2) * 10 := by nlinarith
            _ = (10:ℚ) ^ ((prec:ℤ) - 1) := hx.symm
          constructor
          · exact fix_exp_le0 prec _ hp1 hoth2e.1 hlt
          · calc |toRat (fix prec ⟨s, oth2.exp⟩)|
                ≤ |toRat ⟨s, oth2.exp⟩| * (1 + (10:ℚ) ^ ((1:ℤ) - prec)) :=
                  fix_abs_le _ _ hp1
            _ ≤ (|toRat a| + |toRat b|) * (5 / 4) := by
                nlinarith [hsabs, abs_nonneg (toRat ⟨s, oth2.exp⟩)]

theorem divStrip_spec :
    ∀ fuel (q : Nat) (e ideal : Int),
      ((divStrip fuel q e ideal).1 : ℚ) * 10 ^ (divStrip fuel q e ideal).2
          = (q : ℚ) * 10 ^ e ∧
      (divStrip fuel q e ideal).2 ≤ max e ideal := by
  intro fuel
  induction fuel with
  | zero => exact fun q e ideal => ⟨rfl, le_max_left _ _⟩
  | succ f ih =>
    intro q e ideal
    rw [divStrip]
    split
    · rename_i hcond
      obtain ⟨hlt, hmod⟩ := hcond
      obtain ⟨ihv, ihe⟩ := ih (q / 10) (e + 1) ideal
      constructor
      · rw [ihv]
        have hdvd : (10 : ℕ) ∣ q := Nat.dvd_of_mod_eq_zero hmod
        have hcast : ((q / 10 : ℕ) : ℚ) = (q : ℚ) / 10 :=
          Nat.cast_div hdvd (by norm_num)
        rw [hcast, zpow_add₀ (by norm_num : (10:ℚ) ≠ 0)]
        norm_num
        ring
      · refine le_trans ihe ?_
        have : e + 1 ≤ ideal := by omega
        rw [max_eq_right this, max_comm]
        exact le_max_left _ _
    · exact ⟨rfl, le_max_left _ _⟩

theorem ddiv_digits_le (prec : Nat) (a b : Dec) (hp : 1 ≤ prec) :
    numDigits (ddiv prec a b).c.natAbs ≤ prec := by
  unfold ddiv
  by_cases h1 : b.c = 0
  · rw [if_pos h1]
    have h4 : numDigits ((⟨0, 0⟩ : Dec)).c.natAbs = 1 := rfl
    omega
  · rw [if_neg h1]
    by_cases h2 : a.c = 0
    · rw [if_pos h2]
      exact fix_digits_le _ _ hp
    · rw [if_neg h2]
      simp only []
      split <;> exact fix_digits_le _ _ hp

theorem ddiv_props (prec : Nat) (a b : Dec) (hp : 4 ≤ prec)
    (hae : a.exp = 0) (hbe : b.exp = 0) (hac : 0 < a.c) (hbc : 0 < b.c)
    (hla : numDigits a.c.natAbs ≤ prec) (hq10 : (a.c : ℚ) / (b.c : ℚ) ≤ 10) :
    (ddiv prec a b).exp ≤ 0 ∧
    |toRat (ddiv prec a b)| ≤ ((a.c : ℚ) / (b.c : ℚ)) * (3 / 2) := by
  have hp1 : 1 ≤ prec := by omega
  have h2 : a.c ≠ 0 := by omega
  have h1 : b.c ≠ 0 := by omega
  set la : Int := (numDigits a.c.natAbs : Int) with hla2
  set lb : Int := (numDigits b.c.natAbs : Int) with hlb2
  set shift := lb - la + prec + 1 with hshift2
  set exp0 := a.exp - b.exp - shift with hexp02
  set num := a.c.natAbs * 10 ^ shift.toNat with hnum2
  set den := b.c.natAbs * 10 ^ (-shift).toNat with hden2
  set q := num / den with hqd
  set r := num % den with hrd
  have hsgn : (if (a.c < 0) = (b.c < 0) then (1 : ℤ) else -1) = 1 := by
    rw [if_pos]
    simp [not_lt.mpr (le_of_lt hac), not_lt.mpr (le_of_lt hbc)]
  have hD : ddiv prec a b =
      if r ≠ 0 then
        fix prec ⟨(1 : ℤ) * (if q % 5 = 0 then (q + 1 : Nat) else q), exp0⟩
      else
        fix prec ⟨(1 : ℤ) * (divStrip (a.exp - b.exp - exp0).toNat q exp0
          (a.exp - b.exp)).1, (divStrip (a.exp - b.exp - exp0).toNat q exp0
          (a.exp - b.exp)).2⟩ := by
    unfold ddiv
    rw [if_neg h1, if_neg h2, hsgn]
  have hlb1 : (1 : ℤ) ≤ lb := by
    rw [hlb2]
    exact_mod_cast numDigits_pos b.c.natAbs
  have hshiftpos : 1 ≤ shift := by
    rw [hshift2, hla2]
    omega
  have hshiftnat : ((shift.toNat : ℕ) : ℤ) = shift := Int.toNat_of_nonneg (by omega)
  have hdene : den = b.c.natAbs := by
    rw [hden2, Int.toNat_of_nonpos (by omega), pow_zero, Nat.mul_one]
  have hbpos : 0 < b.c.natAbs := Int.natAbs_pos.mpr h1
  have hapos : 0 < a.c.natAbs := Int.natAbs_pos.mpr h2
  have hdenpos : 0 < den := by
    rw [hdene]
    exact hbpos
  -- the quotient has at least prec + 1 digits: q >= 10 ^ prec
  have hqge : 10 ^ prec ≤ q := by
    rw [hqd, Nat.le_div_iff_mul_le hdenpos, hdene, hnum2]
    have hblt : b.c.natAbs < 10 ^ numDigits b.c.natAbs := numDigits_lt _
    have hage : 10 ^ (numDigits a.c.natAbs - 1) ≤ a.c.natAbs :=
      numDigits_le_self _ hapos
    have hexp : numDigits a.c.natAbs - 1 + shift.toNat
        = prec + numDigits b.c.natAbs := by
      have h5 : (numDigits a.c.natAbs : ℤ) - 1 + shift = prec + lb := by
        rw [hshift2, hla2]
        ring
      have h6 := numDigits_pos a.c.natAbs
      omega
    calc (10 : ℕ) ^ prec * b.c.natAbs ≤ 10 ^ prec * 10 ^ numDigits b.c.natAbs :=
          Nat.mul_le_mul (Nat.le_refl _) (le_of_lt hblt)
    _ = 10 ^ (prec + numDigits b.c.natAbs) := by rw [← pow_add]
    _ = 10 ^ (numDigits a.c.natAbs - 1 + shift.toNat) := by rw [hexp]
    _ = 10 ^ (numDigits a.c.natAbs - 1) * 10 ^ shift.toNat := by rw [← pow_add]
    _ ≤ a.c.natAbs * 10 ^ shift.toNat :=
          Nat.mul_le_mul_right _ hage
  have hqpos : 0 < q := lt_of_lt_of_le (Nat.pos_pow_of_pos prec (by norm_num)) hqge
  -- exact scaled value: (q : ℚ) * 10 ^ exp0 ≤ a.c / b.c
  have hexp0 : exp0 = -shift := by
    rw [hexp02, hae, hbe]
    ring
  have hacQ : (a.c.natAbs : ℚ) = (a.c : ℚ) := by
    rw [Int.cast_natAbs, Int.cast_abs, abs_of_pos (by exact_mod_cast hac)]
  have hbcQ : (b.c.natAbs : ℚ) = (b.c : ℚ) := by
    rw [Int.cast_natAbs, Int.cast_abs, abs_of_pos (by exact_mod_cast hbc)]
  have hbQpos : (0 : ℚ) < (b.c : ℚ) := by exact_mod_cast hbc
  have haQpos : (0 : ℚ) < (a.c : ℚ) := by exact_mod_cast hac
  have hscale : (num : ℚ) / (den : ℚ) * (10 : ℚ) ^ exp0 = (a.c : ℚ) / (b.c : ℚ) := by
    rw [hnum2, hdene, hexp0]
    push_cast
    rw [hacQ, hbcQ]
    have hten : (10:ℚ) ^ shift.toNat = (10:ℚ) ^ (shift : ℤ) := by
      rw [← zpow_natCast (10:ℚ) shift.toNat, hshiftnat]
    rw [hten, div_mul_eq_mul_div, mul_assoc, ← zpow_add₀ (by norm_num : (10:ℚ) ≠ 0)]
    simp
  have hqle : (q : ℚ) * (10 : ℚ) ^ exp0 ≤ (a.c : ℚ) / (b.c : ℚ) := by
    rw [← hscale]
    apply mul_le_mul_of_nonneg_right _ (le_of_lt (zpow_pos (by norm_num) _))
    rw [hqd]
    exact Nat.cast_div_le
  have hqexp : (q : ℚ) * (10 : ℚ) ^ exp0 ≥ 10 ^ prec * (10 : ℚ) ^ exp0 := by
    apply mul_le_mul_of_nonneg_right _ (le_of_lt (zpow_pos (by norm_num) _))
    exact_mod_cast hqge
  have hsmall : (10 : ℚ) ^ exp0 ≤ (q : ℚ) * (10 : ℚ) ^ exp0 * (10 : ℚ) ^ (-(prec:ℤ)) := by
    have hcast : ((10 ^ prec : ℕ) : ℚ) = (10:ℚ) ^ (prec : ℤ) := by
      push_cast
      rw [zpow_natCast]
    have h7 : (10:ℚ) ^ (prec : ℤ) * (10:ℚ) ^ (-(prec:ℤ)) = 1 := by
      rw [← zpow_add₀ (by norm_num : (10:ℚ) ≠ 0)]
      simp
    have h8 : (0:ℚ) < (10:ℚ) ^ (-(prec:ℤ)) := zpow_pos (by norm_num) _
    have h9 : (10:ℚ) ^ (prec:ℤ) * (10:ℚ) ^ exp0 ≤ (q : ℚ) * (10 : ℚ) ^ exp0 := by
      rw [zpow_natCast]
      exact hqexp
    have h10 : (0:ℚ) < (10:ℚ) ^ exp0 := zpow_pos (by norm_num) _
    nlinarith
  have heps0 : (10:ℚ) ^ (-(prec:ℤ)) ≤ 1 / 100 := by
    have hh := zpow_le_zpow_exp (-(prec:ℤ)) (-2) (by omega)
    have : (10:ℚ) ^ (-2 : ℤ) = 1 / 100 := by norm_num
    rw [this] at hh
    exact hh
  have heps1 : (10:ℚ) ^ ((1:ℤ) - prec) ≤ 1 / 10 := by
    have hh := zpow_le_zpow_exp ((1:ℤ) - prec) (-1) (by omega)
    have : (10:ℚ) ^ (-1 : ℤ) = 1 / 10 := by norm_num
    rw [this] at hh
    exact hh
  have habq : (0:ℚ) < (a.c : ℚ) / (b.c : ℚ) := div_pos haQpos hbQpos
  rw [hD]
  split
  · -- inexact branch
    have hval : toRat ⟨(1 : ℤ) * (if q % 5 = 0 then (q + 1 : Nat) else q), exp0⟩
        = ((if q % 5 = 0 then (q + 1 : Nat) else q) : ℚ) * (10:ℚ) ^ exp0 := by
      unfold toRat
      push_cast
      ring
    have hvle : |toRat ⟨(1 : ℤ) * (if q % 5 = 0 then (q + 1 : Nat) else q), exp0⟩|
        ≤ ((a.c : ℚ) / (b.c : ℚ)) * (1 + 1 / 100) := by
      rw [hval, abs_of_pos]
      · have hle2 : ((if q % 5 = 0 then (q + 1 : Nat) else q) : ℚ) ≤ (q : ℚ) + 1 := by
          split <;> push_cast <;> linarith
        have h12 : ((q : ℚ) + 1) * (10:ℚ) ^ exp0
            = (q : ℚ) * (10:ℚ) ^ exp0 + (10:ℚ) ^ exp0 := by ring
        have h13 : (0:ℚ) < (10:ℚ) ^ exp0 := zpow_pos (by norm_num) _
        have h14 : (0:ℚ) ≤ (q : ℚ) * (10:ℚ) ^ exp0 := by positivity
        nlinarith
      · have h13 : (0:ℚ) < (10:ℚ) ^ exp0 := zpow_pos (by norm_num) _
        have : (0:ℚ) < ((if q % 5 = 0 then (q + 1 : Nat) else q) : ℚ) := by
          have hq1 : (0:ℚ) < (q:ℚ) := by exact_mod_cast hqpos
          split <;> push_cast <;> linarith
        positivity
    constructor
    · apply fix_exp_le0 prec _ hp1
      · simp only
        rw [hexp0]
        omega
      · calc |toRat _| ≤ ((a.c : ℚ) / (b.c : ℚ)) * (1 + 1 / 100) := hvle
        _ ≤ 10 * (1 + 1 / 100) := by nlinarith
        _ < (10:ℚ) ^ ((prec:ℤ) - 1) := by
            have hh := zpow_le_zpow_exp 3 ((prec:ℤ) - 1) (by omega)
            have h3 : (10:ℚ) ^ (3 : ℤ) = 1000 := by norm_num
            rw [h3] at hh
            nlinarith
    · calc |toRat (fix prec _)| ≤ _ * (1 + (10:ℚ) ^ ((1:ℤ) - prec)) :=
          fix_abs_le _ _ hp1
      _ ≤ ((a.c : ℚ) / (b.c : ℚ)) * (1 + 1 / 100) * (1 + 1 / 10) := by
          have := abs_nonneg (toRat ⟨(1 : ℤ) *
            (if q % 5 = 0 then (q + 1 : Nat) else q), exp0⟩)
          nlinarith
      _ ≤ ((a.c : ℚ) / (b.c : ℚ)) * (3 / 2) := by nlinarith
  · -- exact branch
    obtain ⟨hsv, hse⟩ := divStrip_spec (a.exp - b.exp - exp0).toNat q exp0
      (a.exp - b.exp)
    have hval : toRat ⟨(1 : ℤ) * (divStrip (a.exp - b.exp - exp0).toNat q exp0
          (a.exp - b.exp)).1, (divStrip (a.exp - b.exp - exp0).toNat q exp0
          (a.exp - b.exp)).2⟩
        = (q : ℚ) * (10:ℚ) ^ exp0 := by
      unfold toRat
      push_cast
      rw [← hsv]
      ring
    constructor
    · apply fix_exp_le0 prec _ hp1
      · simp only
        refine le_trans hse ?_
        rw [hae, hbe, hexp0]
        simp only [sub_zero]
        omega
      · rw [hval, abs_of_pos (by positivity)]
        calc (q : ℚ) * (10:ℚ) ^ exp0 ≤ (a.c : ℚ) / (b.c : ℚ) := hqle
        _ ≤ 10 := hq10
        _ < (10:ℚ) ^ ((prec:ℤ) - 1) := by
            have hh := zpow_le_zpow_exp 3 ((prec:ℤ) - 1) (by omega)
            have h3 : (10:ℚ) ^ (3 : ℤ) = 1000 := by norm_num
            rw [h3] at hh
            nlinarith
    · calc |toRat (fix prec _)| ≤ _ * (1 + (10:ℚ) ^ ((1:ℤ) - prec)) :=
          fix_abs_le _ _ hp1
      _ ≤ ((a.c : ℚ) / (b.c : ℚ)) * (1 + 1 / 10) := by
          have h15 : |toRat ⟨(1 : ℤ) * (divStrip (a.exp - b.exp - exp0).toNat q exp0
              (a.exp - b.exp)).1, (divStrip (a.exp - b.exp - exp0).toNat q exp0
              (a.exp - b.exp)).2⟩| ≤ (a.c : ℚ) / (b.c : ℚ) := by
            rw [hval, abs_of_pos (by positivity)]
            exact hqle
          have := abs_nonneg (toRat ⟨(1 : ℤ) *
            (divStrip (a.exp - b.exp - exp0).toNat q exp0 (a.exp - b.exp)).1,
            (divStrip (a.exp - b.exp - exp0).toNat q exp0 (a.exp - b.exp)).2⟩)
          nlinarith
      _ ≤ ((a.c : ℚ) / (b.c : ℚ)) * (3 / 2) := by nlinarith

theorem pow_ge_100 (prec : Nat) (hp : 4 ≤ prec) :
    (100:ℚ) ≤ (10:ℚ) ^ ((prec:ℤ) - 2) := by
  have h := zpow_le_zpow_exp 2 ((prec:ℤ) - 2) (by omega)
  have h2 : (10:ℚ) ^ (2:ℤ) = 100 := by norm_num
  rw [h2] at h
  exact h

theorem pow_ge_1000 (prec : Nat) (hp : 4 ≤ prec) :
    (1000:ℚ) ≤ (10:ℚ) ^ ((prec:ℤ) - 1) := by
  have h := zpow_le_zpow_exp 3 ((prec:ℤ) - 1) (by omega)
  have h2 : (10:ℚ) ^ (3:ℤ) = 1000 := by norm_num
  rw [h2] at h
  exact h

theorem toRat_mul (a b : Dec) :
    toRat ⟨a.c * b.c, a.exp + b.exp⟩ = toRat a * toRat b := by
  unfold toRat
  push_cast
  rw [zpow_add₀ (by norm_num : (10:ℚ) ≠ 0)]
  ring

theorem dmul_props (prec : Nat) (a b : Dec) (hp : 2 ≤ prec)
    (hea : a.exp ≤ 0) (heb : b.exp ≤ 0)
    (hv : |toRat a| * |toRat b| < (10:ℚ) ^ ((prec:ℤ) - 1)) :
    (dmul prec a b).exp ≤ 0 ∧
    numDigits (dmul prec a b).c.natAbs ≤ prec ∧
    |toRat (dmul prec a b)| ≤ |toRat a| * |toRat b| * (11 / 10) := by
  have hp1 : 1 ≤ prec := by omega
  have hD : dmul prec a b = fix prec ⟨a.c * b.c, a.exp + b.exp⟩ := rfl
  have habs : |toRat (⟨a.c * b.c, a.exp + b.exp⟩ : Dec)| = |toRat a| * |toRat b| := by
    rw [toRat_mul, abs_mul]
  rw [hD]
  refine ⟨?_, fix_digits_le _ _ hp1, ?_⟩
  · apply fix_exp_le0 prec _ hp1
    · show a.exp + b.exp ≤ 0
      omega
    · rw [habs]
      exact hv
  · have h1 := fix_abs_le prec ⟨a.c * b.c, a.exp + b.exp⟩ hp1
    rw [habs] at h1
    have heps : (10:ℚ) ^ ((1:ℤ) - prec) ≤ 1 / 10 := by
      have h2 := zpow_le_zpow_exp ((1:ℤ) - prec) (-1) (by omega)
      have h3 : (10:ℚ) ^ (-1:ℤ) = 1/10 := by norm_num
      rw [h3] at h2
      exact h2
    have hnn : (0:ℚ) ≤ |toRat a| * |toRat b| := by positivity
    calc |toRat (fix prec ⟨a.c * b.c, a.exp + b.exp⟩)|
        ≤ |toRat a| * |toRat b| * (1 + (10:ℚ) ^ ((1:ℤ) - prec)) := h1
    _ ≤ |toRat a| * |toRat b| * (11/10) := by nlinarith

theorem dsub_props (prec : Nat) (a b : Dec) (hp : 2 ≤ prec)
    (hea : a.exp ≤ 0) (heb : b.exp ≤ 0)
    (hda : numDigits a.c.natAbs ≤ prec) (hdb : numDigits b.c.natAbs ≤ prec)
    (hv : |toRat a| + |toRat b| ≤ (10 : ℚ) ^ ((prec : ℤ) - 2)) :
    (dsub prec a b).exp ≤ 0 ∧
    numDigits (dsub prec a b).c.natAbs ≤ prec ∧
    |toRat (dsub prec a b)| ≤ (|toRat a| + |toRat b|) * (5 / 4) := by
  have hp1 : 1 ≤ prec := by omega
  have hnb : |toRat (⟨-b.c, b.exp⟩ : Dec)| = |toRat b| := by
    unfold toRat
    push_cast
    rw [neg_mul, abs_neg]
  have hdn : numDigits (⟨-b.c, b.exp⟩ : Dec).c.natAbs ≤ prec := by
    show numDigits (-b.c).natAbs ≤ prec
    rw [Int.natAbs_neg]
    exact hdb
  have hD : dsub prec a b = dadd prec a ⟨-b.c, b.exp⟩ := rfl
  obtain ⟨h1, h2⟩ := dadd_props prec a ⟨-b.c, b.exp⟩ hp hea heb hda hdn
    (by rw [hnb]; exact hv)
  rw [hD]
  refine ⟨h1, dadd_digits_le prec a _ hp1, ?_⟩
  rw [hnb] at h2
  exact h2

theorem ddiv_int_le (prec m n u : Nat) (hp : 4 ≤ prec) (hm : 1 ≤ m) (hn : 1 ≤ n)
    (hd : numDigits m ≤ prec) (hu : m ≤ u * n) (hu10 : u ≤ 10) :
    (ddiv prec (decInt m) (decInt n)).exp ≤ 0 ∧
    numDigits (ddiv prec (decInt m) (decInt n)).c.natAbs ≤ prec ∧
    |toRat (ddiv prec (decInt m) (decInt n))| ≤ (u : ℚ) * (3 / 2) := by
  have hp1 : 1 ≤ prec := by omega
  have hmz : (0:ℤ) < (decInt m).c := by
    show (0:ℤ) < (m:ℤ)
    exact_mod_cast hm
  have hnz : (0:ℤ) < (decInt n).c := by
    show (0:ℤ) < (n:ℤ)
    exact_mod_cast hn
  have hnQ : (0:ℚ) < (((n:ℤ)):ℚ) := by exact_mod_cast hn
  have hdd : numDigits ((decInt m).c).natAbs ≤ prec := by
    show numDigits ((m:ℤ)).natAbs ≤ prec
    rw [Int.natAbs_ofNat]
    exact hd
  have hquo : ((((decInt m).c):ℚ)) / ((((decInt n).c):ℚ)) ≤ (u:ℚ) := by
    show (((m:ℤ)):ℚ) / (((n:ℤ)):ℚ) ≤ (u:ℚ)
    rw [div_le_iff hnQ]
    push_cast
    exact_mod_cast hu
  obtain ⟨he, hv⟩ := ddiv_props prec (decInt m) (decInt n) hp rfl rfl hmz hnz hdd
    (by
      calc ((((decInt m).c):ℚ)) / ((((decInt n).c):ℚ)) ≤ (u:ℚ) := hquo
      _ ≤ 10 := by exact_mod_cast hu10)
  refine ⟨he, ddiv_digits_le prec _ _ hp1, ?_⟩
  calc |toRat (ddiv prec (decInt m) (decInt n))|
      ≤ ((((decInt m).c):ℚ)) / ((((decInt n).c):ℚ)) * (3/2) := hv
  _ ≤ (u:ℚ) * (3/2) := by linarith

theorem bbp_term_props (prec k : Nat) (hp : 4 ≤ prec) :
    (bbp_term prec k).exp ≤ 0 ∧
    numDigits (bbp_term prec k).c.natAbs ≤ prec ∧
    |toRat (bbp_term prec k)| ≤ 48 := by
  have hp1 : 1 ≤ prec := by omega
  have hp2 : 2 ≤ prec := by omega
  have hd1 : numDigits 1 ≤ prec := by
    have h : numDigits 1 = 1 := by decide
    omega
  have hd4 : numDigits 4 ≤ prec := by
    have h : numDigits 4 = 1 := by decide
    omega
  have hd2 : numDigits 2 ≤ prec := by
    have h : numDigits 2 = 1 := by decide
    omega
  have h100 := pow_ge_100 prec hp
  have h1000 := pow_ge_1000 prec hp
  obtain ⟨heA, hdA, hvA0⟩ := ddiv_int_le prec 4 (8*k+1) 4 hp (by omega) (by omega)
    hd4 (by omega) (by omega)
  obtain ⟨heB, hdB, hvB0⟩ := ddiv_int_le prec 2 (8*k+4) 1 hp (by omega) (by omega)
    hd2 (by omega) (by omega)
  obtain ⟨heC, hdC, hvC0⟩ := ddiv_int_le prec 1 (8*k+5) 1 hp (by omega) (by omega)
    hd1 (by omega) (by omega)
  obtain ⟨heD, hdD, hvD0⟩ := ddiv_int_le prec 1 (8*k+6) 1 hp (by omega) (by omega)
    hd1 (by omega) (by omega)
  obtain ⟨heR, hdR, hvR0⟩ := ddiv_int_le prec 1 (16^k) 1 hp (by omega)
    (Nat.pos_pow_of_pos k (by norm_num)) hd1
    (by
      have := Nat.pos_pow_of_pos k (show 0 < 16 by norm_num)
      omega)
    (by omega)
  have hvA : |toRat (ddiv prec (decInt 4) (decInt (8 * k + 1 : Nat)))| ≤ 6 :=
    le_trans hvA0 (by norm_num)
  have hvB : |toRat (ddiv prec (decInt 2) (decInt (8 * k + 4 : Nat)))| ≤ 3/2 :=
    le_trans hvB0 (by norm_num)
  have hvC : |toRat (ddiv prec (decInt 1) (decInt (8 * k + 5 : Nat)))| ≤ 3/2 :=
    le_trans hvC0 (by norm_num)
  have hvD : |toRat (ddiv prec (decInt 1) (decInt (8 * k + 6 : Nat)))| ≤ 3/2 :=
    le_trans hvD0 (by norm_num)
  have hvR : |toRat (ddiv prec (decInt 1) (decInt (16 ^ k : Nat)))| ≤ 3/2 :=
    le_trans hvR0 (by norm_num)
  obtain ⟨heS1, hdS1, hvS1x⟩ := dsub_props prec
    (ddiv prec (decInt 4) (decInt (8 * k + 1 : Nat)))
    (ddiv prec (decInt 2) (decInt (8 * k + 4 : Nat))) hp2 heA heB hdA hdB
    (by linarith)
  have hvS1 : |toRat (dsub prec (ddiv prec (decInt 4) (decInt (8 * k + 1 : Nat)))
      (ddiv prec (decInt 2) (decInt (8 * k + 4 : Nat))))| ≤ 10 := by
    linarith
  obtain ⟨heS2, hdS2, hvS2x⟩ := dsub_props prec
    (dsub prec (ddiv prec (decInt 4) (decInt (8 * k + 1 : Nat)))
      (ddiv prec (decInt 2) (decInt (8 * k + 4 : Nat))))
    (ddiv prec (decInt 1) (decInt (8 * k + 5 : Nat))) hp2 heS1 heC hdS1 hdC
    (by linarith)
  have hvS2 : |toRat (dsub prec
      (dsub prec (ddiv prec (decInt 4) (decInt (8 * k + 1 : Nat)))
        (ddiv prec (decInt 2) (decInt (8 * k + 4 : Nat))))
      (ddiv prec (decInt 1) (decInt (8 * k + 5 : Nat))))| ≤ 15 := by
    linarith
  obtain ⟨heS3, hdS3, hvS3x⟩ := dsub_props prec
    (dsub prec
      (dsub prec (ddiv prec (decInt 4) (decInt (8 * k + 1 : Nat)))
        (ddiv prec (decInt 2) (decInt (8 * k + 4 : Nat))))
      (ddiv prec (decInt 1) (decInt (8 * k + 5 : Nat))))
    (ddiv prec (decInt 1) (decInt (8 * k + 6 : Nat))) hp2 heS2 heD hdS2 hdD
    (by linarith)
  have hvS3 : |toRat (dsub prec
      (dsub prec
        (dsub prec (ddiv prec (decInt 4) (decInt (8 * k + 1 : Nat)))
          (ddiv prec (decInt 2) (decInt (8 * k + 4 : Nat))))
        (ddiv prec (decInt 1) (decInt (8 * k + 5 : Nat))))
      (ddiv prec (decInt 1) (decInt (8 * k + 6 : Nat))))| ≤ 21 := by
    linarith
  have hprod : |toRat (ddiv prec (decInt 1) (decInt (16 ^ k : Nat)))| *
      |toRat (dsub prec
        (dsub prec
          (dsub prec (ddiv prec (decInt 4) (decInt (8 * k + 1 : Nat)))
            (ddiv prec (decInt 2) (decInt (8 * k + 4 : Nat))))
          (ddiv prec (decInt 1) (decInt (8 * k + 5 : Nat))))
        (ddiv prec (decInt 1) (decInt (8 * k + 6 : Nat))))| ≤ 63/2 := by
    calc _ ≤ (3/2 : ℚ) * 21 := mul_le_mul hvR hvS3 (abs_nonneg _) (by norm_num)
    _ ≤ 63/2 := by norm_num
  obtain ⟨heT, hdT, hvTx⟩ := dmul_props prec
    (ddiv prec (decInt 1) (decInt (16 ^ k : Nat)))
    (dsub prec
      (dsub prec
        (dsub prec (ddiv prec (decInt 4) (decInt (8 * k + 1 : Nat)))
          (ddiv prec (decInt 2) (decInt (8 * k + 4 : Nat))))
        (ddiv prec (decInt 1) (decInt (8 * k + 5 : Nat))))
      (ddiv prec (decInt 1) (decInt (8 * k + 6 : Nat)))) hp2 heR heS3
    (by linarith)
  have hbt : bbp_term prec k = dmul prec
      (ddiv prec (decInt 1) (decInt (16 ^ k : Nat)))
      (dsub prec
        (dsub prec
          (dsub prec (ddiv prec (decInt 4) (decInt (8 * k + 1 : Nat)))
            (ddiv prec (decInt 2) (decInt (8 * k + 4 : Nat))))
          (ddiv prec (decInt 1) (decInt (8 * k + 5 : Nat))))
        (ddiv prec (decInt 1) (decInt (8 * k + 6 : Nat)))) := rfl
  refine ⟨heT, hdT, ?_⟩
  rw [hbt]
  linarith

theorem pySum_total {α : Type} (add : α → α → α) (z : α) (d : Nat → Option α)
    (f : Nat → α) (n : Nat) (hf : ∀ i, i < n → d i = some (f i)) :
    pySum add z d n = some ((List.range n).foldl (fun a i => add a (f i)) z) := by
  induction n with
  | zero => rfl
  | succ m ih =>
    rw [pySum_step, ih (fun i hi => hf i (by omega)), hf m (by omega)]
    rw [List.range_succ, List.foldl_append]
    rfl

theorem bbp_growth (digits : Nat) :
    (240:ℚ) * 2 ^ digits ≤ (10:ℚ) ^ ((((digits+10 : Nat)):ℤ) - 2) := by
  have hcast : ((((digits+10 : Nat)):ℤ) - 2) = (digits : ℤ) + 8 := by
    push_cast
    ring
  rw [hcast]
  have hz : (10:ℚ) ^ ((digits:ℤ) + 8) = (10:ℚ) ^ ((digits:ℕ):ℤ) * 10 ^ (8:ℤ) := by
    rw [← zpow_add₀ (by norm_num : (10:ℚ) ≠ 0)]
  rw [hz, zpow_natCast]
  have h1 : (2:ℚ) ^ digits ≤ 10 ^ digits := pow_le_pow_left (by norm_num) (by norm_num) digits
  have h8 : (10:ℚ) ^ (8:ℤ) = 100000000 := by norm_num
  rw [h8]
  have hq : (0:ℚ) < 2 ^ digits := by positivity
  nlinarith

theorem bbpSum_range_props (prec : Nat) (hp : 11 ≤ prec) :
    ∀ n : Nat, (240:ℚ) * 2 ^ n ≤ (10:ℚ) ^ ((prec:ℤ) - 2) →
    (bbpSum prec (List.range n)).exp ≤ 0 ∧
    numDigits (bbpSum prec (List.range n)).c.natAbs ≤ prec ∧
    |toRat (bbpSum prec (List.range n))| ≤ 240 * 2 ^ n - 240 := by
  intro n
  induction n with
  | zero =>
    intro _
    have hz : bbpSum prec (List.range 0) = decInt 0 := rfl
    rw [hz]
    refine ⟨le_refl 0, ?_, ?_⟩
    · have h1 : numDigits (decInt 0).c.natAbs = 1 := rfl
      omega
    · have h2 : toRat (decInt 0) = 0 := by
        unfold toRat decInt
        norm_num
      rw [h2]
      norm_num
  | succ m ih =>
    intro hv
    have hv' : (240:ℚ) * 2 ^ m ≤ (10:ℚ) ^ ((prec:ℤ) - 2) := by
      have hq : (0:ℚ) < 2 ^ m := by positivity
      have h2 : (2:ℚ) ^ m ≤ 2 ^ (m+1) := by
        rw [pow_succ]
        linarith
      linarith
    obtain ⟨he, hdg, hval⟩ := ih hv'
    have hstep : bbpSum prec (List.range (m+1))
        = dadd prec (bbpSum prec (List.range m)) (bbp_term prec m) := by
      unfold bbpSum
      rw [List.range_succ, List.foldl_append]
      rfl
    obtain ⟨heT, hdT, hvT⟩ := bbp_term_props prec m (by omega)
    have hsum : |toRat (bbpSum prec (List.range m))| + |toRat (bbp_term prec m)|
        ≤ (10:ℚ) ^ ((prec:ℤ) - 2) := by
      linarith
    obtain ⟨h1, h2⟩ := dadd_props prec _ _ (by omega) he heT hdg hdT hsum
    rw [hstep]
    refine ⟨h1, dadd_digits_le prec _ _ (by omega), ?_⟩
    calc |toRat (dadd prec (bbpSum prec (List.range m)) (bbp_term prec m))|
        ≤ (|toRat (bbpSum prec (List.range m))| + |toRat (bbp_term prec m)|) * (5/4) := h2
    _ ≤ (240 * 2 ^ m - 240 + 48) * (5/4) := by linarith
    _ ≤ 240 * 2 ^ (m+1) - 240 := by
        have hq : (0:ℚ) ≤ 2 ^ m := by positivity
        rw [pow_succ]
        linarith

theorem bbp_parallel_sum_eq (pre digits c : Nat) (hd : 1 ≤ digits)
    (hc : c = 1 ∨ c = digits ∨ c = digits * 2) :
    pySum (dadd (digits+10)) (decInt 0) (bbpReturnDict pre digits c)
      (bbpChunks digits c).length
      = some (bbpSum (digits+10) (List.range digits)) := by
  rcases hc with hc1 | hcge | hcge
  · -- chunk_size = 1: one term per worker
    subst hc1
    have hcd : ceilDiv digits 1 = digits := by
      unfold ceilDiv
      omega
    have hlen : (bbpChunks digits 1).length = digits := by
      rw [bbpChunks_length digits 1 (by omega), hcd]
    have hdict : ∀ i, i < digits → bbpReturnDict pre digits 1 i
        = some (bbp_term (digits+10) i) := by
      intro i hi
      unfold bbpReturnDict
      rw [bbpChunks_get digits 1 (by omega) i (by rw [hcd]; exact hi),
        Option.map_some']
      have hw : (_bbp_worker pre (i*1) (min (i*1+1) digits) digits).1
          = bbp_term (digits+10) i := by
        show bbpSum (digits+10) (List.range' (i*1) (min (i*1+1) digits - i*1)) = _
        have h2 : min (i*1+1) digits - i*1 = 1 := by omega
        have h3 : i * 1 = i := by omega
        rw [h2, h3, List.range'_one]
        show dadd (digits+10) (decInt 0) (bbp_term (digits+10) i) = _
        obtain ⟨heT, hdT, _⟩ := bbp_term_props (digits+10) i (by omega)
        exact zadd_id _ _ heT hdT
      rw [hw]
    rw [hlen, pySum_total (dadd (digits+10)) (decInt 0) (bbpReturnDict pre digits 1)
      (fun i => bbp_term (digits+10) i) digits hdict]
    rfl
  all_goals
  -- chunk_size >= digits: a single chunk covering everything
  · have hcp : 1 ≤ c := by omega
    have hcge' : digits ≤ c := by omega
    have hone : ceilDiv digits c = 1 := ceilDiv_one_of digits c hd hcge'
    have hlen : (bbpChunks digits c).length = 1 := by
      rw [bbpChunks_length digits c hcp, hone]
    have hdict0 : bbpReturnDict pre digits c 0
        = some (bbpSum (digits+10) (List.range digits)) := by
      unfold bbpReturnDict
      rw [bbpChunks_get digits c hcp 0 (by omega), Option.map_some']
      have hw : (_bbp_worker pre (0*c) (min (0*c+c) digits) digits).1
          = bbpSum (digits+10) (List.range digits) := by
        show bbpSum (digits+10) (List.range' (0*c) (min (0*c+c) digits - 0*c)) = _
        have h2 : min (0*c+c) digits - 0*c = digits := by omega
        have h3 : 0 * c = 0 := by omega
        rw [h2, h3, ← List.range_eq_range']
      rw [hw]
    rw [hlen, pySum_step]
    have h0 : pySum (dadd (digits+10)) (decInt 0) (bbpReturnDict pre digits c) 0
        = some (decInt 0) := rfl
    rw [h0, hdict0]
    show some (dadd (digits+10) (decInt 0) (bbpSum (digits+10) (List.range digits)))
      = some (bbpSum (digits+10) (List.range digits))
    obtain ⟨heS, hdS, _⟩ := bbpSum_range_props (digits+10) (by omega) digits
      (bbp_growth digits)
    rw [zadd_id _ _ heS hdS]

theorem bbp_parallel_eq_serial (pre pre2 digits c : Nat) (hd : 1 ≤ digits)
    (hc : c = 1 ∨ c = digits ∨ c = digits * 2) :
    (bbp_parallel pre digits c).1 = some ((bbp_serial pre2 digits).1) := by
  have h1 : (bbp_parallel pre digits c).1
      = (pySum (dadd (digits+10)) (decInt 0)
          (bbpReturnDict (digits+10) digits c) (bbpChunks digits c).length).map
          (fun p => pySlice (pyStr (dpos (digits+10) p)) (digits+2)) := rfl
  rw [h1, bbp_parallel_sum_eq (digits+10) digits c hd hc]
  rfl

/-- C2: for every `digits >= 1` and `chunk_size` in `{1, digits, digits*2}`,
`bbp_parallel digits chunk_size` succeeds (no worker slot is missing) and
returns a string agreeing with `bbp_serial digits` on the first
`min (digits+2) 102` characters (the full strings in fact coincide),
whatever context precisions `pre`, `pre2` the two callers start from. -/
theorem claim2_parallel_serial_agree (pre pre2 digits c : Nat) (hd : 1 ≤ digits)
    (hc : c = 1 ∨ c = digits ∨ c = digits * 2) :
    ∃ p, (bbp_parallel pre digits c).1 = some p ∧
      pySlice p (min (digits + 2) 102)
        = pySlice ((bbp_serial pre2 digits).1) (min (digits + 2) 102) :=
  ⟨(bbp_serial pre2 digits).1, bbp_parallel_eq_serial pre pre2 digits c hd hc, rfl⟩

/-- Witness for C2 at `digits = 7`, `chunk_size = 14 = digits * 2`. -/
theorem claim2_witness :
    1 ≤ 7 ∧ (14 = 1 ∨ 14 = 7 ∨ 14 = 7 * 2) ∧
    (∃ p, (bbp_parallel 28 7 14).1 = some p ∧
      pySlice p (min (7 + 2) 102)
        = pySlice ((bbp_serial 31 7).1) (min (7 + 2) 102)) :=
  ⟨by decide, by decide,
    claim2_parallel_serial_agree 28 31 7 14 (by decide) (by decide)⟩

/-- C4: `bbp_term` is exactly the spec's term function: it agrees
definitionally with `bbpTermSpec` (the chain of context-precision decimal
operations the spec describes, a pure function of the caller's precision),
and under a sample context (precision 22, the `digits = 12` serial setting)
its value differs from the exact summand
`16^-k * (4/(8k+1) - 2/(8k+4) - 1/(8k+5) - 1/(8k+6))` by at most `10^-18`
for every `k < 12`. -/
theorem claim4_term_function :
    (∀ prec k, bbp_term prec k = bbpTermSpec prec k) ∧
    (∀ k, k < 12 → |toRat (bbp_term 22 k) - bbpTermExact k| ≤ 1 / 10 ^ 18) := by
  refine ⟨fun _ _ => rfl, ?_⟩
  intro k hk
  interval_cases k
  · rw [show bbp_term 22 0 = ⟨3133333333333333333333, -21⟩ from by decide, abs_le]
    constructor <;> norm_num [toRat, bbpTermExact]
  · rw [show bbp_term 22 1 = ⟨8089133089133089133088, -24⟩ from by decide, abs_le]
    constructor <;> norm_num [toRat, bbpTermExact]
  · rw [show bbp_term 22 2 = ⟨1649239241151005856888, -25⟩ from by decide, abs_le]
    constructor <;> norm_num [toRat, bbpTermExact]
  · rw [show bbp_term 22 3 = ⟨5067220853858784893269, -27⟩ from by decide, abs_le]
    constructor <;> norm_num [toRat, bbpTermExact]
  · rw [show bbp_term 22 4 = ⟨1878929009377200166670, -28⟩ from by decide, abs_le]
    constructor <;> norm_num [toRat, bbpTermExact]
  · rw [show bbp_term 22 5 = ⟨7767751215177356813107, -30⟩ from by decide, abs_le]
    constructor <;> norm_num [toRat, bbpTermExact]
  · rw [show bbp_term 22 6 = ⟨3447932930508627263600, -31⟩ from by decide, abs_le]
    constructor <;> norm_num [toRat, bbpTermExact]
  · rw [show bbp_term 22 7 = ⟨1609187715553700527433, -32⟩ from by decide, abs_le]
    constructor <;> norm_num [toRat, bbpTermExact]
  · rw [show bbp_term 22 8 = ⟨7795702954001012279115, -34⟩ from by decide, abs_le]
    constructor <;> norm_num [toRat, bbpTermExact]
  · rw [show bbp_term 22 9 = ⟨3887115259909751224506, -35⟩ from by decide, abs_le]
    constructor <;> norm_num [toRat, bbpTermExact]
  · rw [show bbp_term 22 10 = ⟨1983225393598130997443, -36⟩ from by decide, abs_le]
    constructor <;> norm_num [toRat, bbpTermExact]
  · rw [show bbp_term 22 11 = ⟨1030971216978887323052, -37⟩ from by decide, abs_le]
    constructor <;> norm_num [toRat, bbpTermExact]

/-- Witness for C4: the `k = 0` instance of the precision-22 error bound. -/
theorem claim4_witness :
    0 < 12 ∧ |toRat (bbp_term 22 0) - bbpTermExact 0| ≤ 1 / 10 ^ 18 :=
  ⟨by decide, claim4_term_function.2 0 (by decide)⟩
